import Mathlib

/-!
A verification development for the cubic smoothing B-spline engine in
`src/bspline/lib/BSpline.cpp` (classes `BSplineBase` and `BSpline`, plus the
banded LU routine `LU_factor_banded`).

The embedding is a shallow one: the C++ floats are modelled by exact
rationals (`ℚ`), matrices by total functions `ℤ → ℤ → ℚ` (node-indexed
objects) or `ℕ → ℕ → ℚ` (the 1-based LU routine), and every loop by a fold
or a structurally recursive function.  Loops whose iteration count is bounded
by the guard `NX/(ni+1) ≥ 1` are given explicit fuel `NX + 2`, which the
guard makes sufficient.
-/

/-! ## Generic helpers: integer ranges, fold invariants, matrix updates -/

/-- `countFromZ len a` is the list `a, a+1, ..., a+len-1`. -/
def countFromZ : ℕ → ℤ → List ℤ
  | 0, _ => []
  | n + 1, a => a :: countFromZ n (a + 1)

/-- The list of integers `lo, lo+1, ..., hi` (empty when `hi < lo`). -/
def rangeIccZ (lo hi : ℤ) : List ℤ := countFromZ (hi + 1 - lo).toNat lo

theorem mem_countFromZ : ∀ (len : ℕ) (a n : ℤ),
    n ∈ countFromZ len a ↔ a ≤ n ∧ n < a + len := by
  intro len
  induction len with
  | zero => intro a n; simp [countFromZ]
  | succ k ih =>
      intro a n
      simp only [countFromZ, List.mem_cons, ih]
      omega

theorem nodup_countFromZ : ∀ (len : ℕ) (a : ℤ), (countFromZ len a).Nodup := by
  intro len
  induction len with
  | zero => intro a; simp [countFromZ]
  | succ k ih =>
      intro a
      simp only [countFromZ, List.nodup_cons, ih, and_true]
      rw [mem_countFromZ]
      omega

theorem mem_rangeIccZ {lo hi n : ℤ} : n ∈ rangeIccZ lo hi ↔ lo ≤ n ∧ n ≤ hi := by
  rw [rangeIccZ, mem_countFromZ]
  omega

theorem nodup_rangeIccZ (lo hi : ℤ) : (rangeIccZ lo hi).Nodup :=
  nodup_countFromZ _ _

/-- `countFromN len a` is the list `a, a+1, ..., a+len-1` over naturals. -/
def countFromN : ℕ → ℕ → List ℕ
  | 0, _ => []
  | n + 1, a => a :: countFromN n (a + 1)

/-- The list of naturals `lo, lo+1, ..., hi` (empty when `hi < lo`). -/
def rangeIccN (lo hi : ℕ) : List ℕ := countFromN (hi + 1 - lo) lo

theorem mem_countFromN : ∀ (len a n : ℕ),
    n ∈ countFromN len a ↔ a ≤ n ∧ n < a + len := by
  intro len
  induction len with
  | zero => intro a n; simp [countFromN]
  | succ k ih =>
      intro a n
      simp only [countFromN, List.mem_cons, ih]
      omega

theorem nodup_countFromN : ∀ (len a : ℕ), (countFromN len a).Nodup := by
  intro len
  induction len with
  | zero => intro a; simp [countFromN]
  | succ k ih =>
      intro a
      simp only [countFromN, List.nodup_cons, ih, and_true]
      rw [mem_countFromN]
      omega

theorem mem_rangeIccN {lo hi n : ℕ} : n ∈ rangeIccN lo hi ↔ lo ≤ n ∧ n ≤ hi := by
  rw [rangeIccN, mem_countFromN]
  omega

theorem nodup_rangeIccN (lo hi : ℕ) : (rangeIccN lo hi).Nodup :=
  nodup_countFromN _ _

/-- An invariant preserved by every step of a fold holds of the result. -/
theorem foldl_inv {α β : Type} (Inv : α → Prop) (step : α → β → α) :
    ∀ (l : List β) (init : α), Inv init →
      (∀ a b, b ∈ l → Inv a → Inv (step a b)) → Inv (l.foldl step init) := by
  intro l
  induction l with
  | nil => intro init h _; exact h
  | cons x xs ih =>
      intro init h hstep
      exact ih _ (hstep _ _ (by simp) h) (fun a b hb => hstep a b (by simp [hb]))

/-- Node-indexed matrices.  Indices outside `0..M` model the C++ accesses that
the algorithms never perform on valid domains. -/
abbrev Mat := ℤ → ℤ → ℚ

/-- The pair of assignments `Q[i][j] = Q[j][i] = v` from the source. -/
def symSet (Q : Mat) (i j : ℤ) (v : ℚ) : Mat := fun a b =>
  if (a = i ∧ b = j) ∨ (a = j ∧ b = i) then v else Q a b

/-- The pair of accumulations `P[i][j] += s; P[j][i] += s` from the source
(for `i = j` it performs the single accumulation `P[i][i] += s`). -/
def symAdd (P : Mat) (i j : ℤ) (s : ℚ) : Mat := fun a b =>
  if (a = i ∧ b = j) ∨ (a = j ∧ b = i) then P a b + s else P a b

namespace Spline

/-! ## The spline domain and the basis evaluator

`SplineDom` collects the members of `BSplineBase` that the basis evaluator
reads: `xmin`, `xmax`, the node-interval count `M` and the node spacing `DX`.
The boundary-condition variant `BC` is the constant 2 fixed by the
constructors, and the derivative order `K` is fixed to 1. -/

structure SplineDom where
  xmin : ℚ
  xmax : ℚ
  M : ℕ
  DX : ℚ

/-- The fixed 3×4 table `BSplineBase::BoundaryConditions`; a read outside
columns 0..3 (excluded by the source's asserts) is modelled as 0. -/
def BoundaryConditions (bc : ℕ) (m : ℤ) : ℚ :=
  match bc with
  | 0 => if m = 0 then -4 else if m = 1 then -1 else if m = 2 then -1 else
         if m = 3 then -4 else 0
  | 1 => if m = 0 then 0 else if m = 1 then 1 else if m = 2 then 1 else
         if m = 3 then 0 else 0
  | _ => if m = 0 then 2 else if m = 1 then -1 else if m = 2 then -1 else
         if m = 3 then 2 else 0

/-- The boundary-condition variant fixed by the `BSplineBase` constructors. -/
def BC : ℕ := 2

/-- `BSplineBase::Beta`: 0 for interior nodes, otherwise a table entry at a
normalized position (`m -= M-3` near the high boundary). -/
def Beta (d : SplineDom) (m : ℤ) : ℚ :=
  if 1 < m ∧ m < (d.M : ℤ) - 1 then 0
  else BoundaryConditions BC (if (d.M : ℤ) - 1 ≤ m then m - ((d.M : ℤ) - 3) else m)

/-- The unconstrained cubic kernel part of `BSplineBase::Basis`: with
`z = |(x - xm)/DX|`, the value is `0.25 (2-z)³` minus `((2-z)-1)³` when the
latter base is positive, for `z < 2`, and 0 otherwise, written exactly as the
source computes it. -/
def rawBasis (d : SplineDom) (m : ℤ) (x : ℚ) : ℚ :=
  let xm := d.xmin + (m : ℚ) * d.DX
  let z := |(x - xm) / d.DX|
  if z < 2 then
    let z2 := 2 - z
    let y := (1 / 4 : ℚ) * (z2 * z2 * z2)
    let z3 := z2 - 1
    if 0 < z3 then y - z3 * z3 * z3 else y
  else 0

/-- `BSplineBase::Basis` with explicit recursion depth.  The C++ recursion
calls itself only at the virtual exterior nodes −1 and `M+1`, and for every
`M ≥ 1` neither of those indices satisfies a boundary test again, so the
recursion stops at depth 1; fuel 2 therefore reproduces it exactly. -/
def basisAux (d : SplineDom) : ℕ → ℤ → ℚ → ℚ
  | 0, m, x => rawBasis d m x
  | fuel + 1, m, x =>
      rawBasis d m x +
        (if m = 0 ∨ m = 1 then Beta d m * basisAux d fuel (-1) x
         else if m = (d.M : ℤ) - 1 ∨ m = (d.M : ℤ) then
           Beta d m * basisAux d fuel ((d.M : ℤ) + 1) x
         else 0)

/-- `BSplineBase::Basis`. -/
def Basis (d : SplineDom) (m : ℤ) (x : ℚ) : ℚ := basisAux d 2 m x

theorem basisAux_succ (d : SplineDom) (fuel : ℕ) (m : ℤ) (x : ℚ) :
    basisAux d (fuel + 1) m x =
      rawBasis d m x +
        (if m = 0 ∨ m = 1 then Beta d m * basisAux d fuel (-1) x
         else if m = (d.M : ℤ) - 1 ∨ m = (d.M : ℤ) then
           Beta d m * basisAux d fuel ((d.M : ℤ) + 1) x
         else 0) := rfl

theorem basisAux_low (d : SplineDom) (h : 1 ≤ d.M) (fuel : ℕ) (x : ℚ) :
    basisAux d (fuel + 1) (-1) x = rawBasis d (-1) x := by
  have h0 : ¬((-1 : ℤ) = 0 ∨ (-1 : ℤ) = 1) := by omega
  have h1 : ¬((-1 : ℤ) = (d.M : ℤ) - 1 ∨ (-1 : ℤ) = (d.M : ℤ)) := by omega
  rw [basisAux_succ, if_neg h0, if_neg h1, add_zero]

theorem basisAux_high (d : SplineDom) (h : 1 ≤ d.M) (fuel : ℕ) (x : ℚ) :
    basisAux d (fuel + 1) ((d.M : ℤ) + 1) x = rawBasis d ((d.M : ℤ) + 1) x := by
  have h0 : ¬((d.M : ℤ) + 1 = 0 ∨ (d.M : ℤ) + 1 = 1) := by omega
  have h1 : ¬((d.M : ℤ) + 1 = (d.M : ℤ) - 1 ∨ (d.M : ℤ) + 1 = (d.M : ℤ)) := by omega
  rw [basisAux_succ, if_neg h0, if_neg h1, add_zero]

theorem Basis_low (d : SplineDom) (h : 1 ≤ d.M) (x : ℚ) :
    Basis d (-1) x = rawBasis d (-1) x := basisAux_low d h 1 x

theorem Basis_high (d : SplineDom) (h : 1 ≤ d.M) (x : ℚ) :
    Basis d ((d.M : ℤ) + 1) x = rawBasis d ((d.M : ℤ) + 1) x := basisAux_high d h 1 x

/-- The raw kernel vanishes outside the open support `|x - xm| < 2 DX`. -/
theorem rawBasis_support (d : SplineDom) (hDX : 0 < d.DX) (m : ℤ) (x : ℚ)
    (h : 2 * d.DX ≤ |x - (d.xmin + (m : ℚ) * d.DX)|) : rawBasis d m x = 0 := by
  have hz : ¬(|(x - (d.xmin + (m : ℚ) * d.DX)) / d.DX| < 2) := by
    rw [abs_div, abs_of_pos hDX, not_lt, le_div_iff₀ hDX]
    linarith
  simp only [rawBasis]
  rw [if_neg hz]


/-- Claim C6: `Basis(m, x)` evaluates the compact-support cubic kernel
centered at node m: for interior m (1 < m < M-1) the boundary coefficient
`Beta m` is 0 and the value vanishes whenever `|x - x_m| ≥ 2 DX`; for
m ∈ {0, 1} the value is the raw kernel plus `Beta m · Basis (-1) x`, and for
m ∈ {M-1, M} the raw kernel plus `Beta m · Basis (M+1) x`. -/
theorem Basis_boundary_spec :
    ∀ (d : SplineDom), 0 < d.DX → 4 ≤ d.M → ∀ (m : ℤ) (x : ℚ),
      (1 < m → m < (d.M : ℤ) - 1 →
        Beta d m = 0 ∧
          (2 * d.DX ≤ |x - (d.xmin + (m : ℚ) * d.DX)| → Basis d m x = 0)) ∧
      ((m = 0 ∨ m = 1) →
        Basis d m x = rawBasis d m x + Beta d m * Basis d (-1) x) ∧
      ((m = (d.M : ℤ) - 1 ∨ m = (d.M : ℤ)) →
        Basis d m x = rawBasis d m x + Beta d m * Basis d ((d.M : ℤ) + 1) x) := by
  intro d hDX hM m x
  have hM1 : 1 ≤ d.M := by omega
  refine ⟨?_, ?_, ?_⟩
  · intro hm1 hm2
    have hBeta : Beta d m = 0 := by rw [Beta, if_pos ⟨hm1, hm2⟩]
    refine ⟨hBeta, ?_⟩
    intro hsupp
    have h0 : ¬(m = 0 ∨ m = 1) := by omega
    have h1 : ¬(m = (d.M : ℤ) - 1 ∨ m = (d.M : ℤ)) := by omega
    rw [Basis, basisAux_succ, if_neg h0, if_neg h1, add_zero,
      rawBasis_support d hDX m x hsupp]
  · intro hm
    rw [Basis, basisAux_succ, if_pos hm, basisAux_low d hM1 0 x, Basis_low d hM1 x]
  · intro hm
    have h0 : ¬(m = 0 ∨ m = 1) := by omega
    rw [Basis, basisAux_succ, if_neg h0, if_pos hm, basisAux_high d hM1 0 x,
      Basis_high d hM1 x]

/-- Witness for C6 on the concrete domain xmin = 0, xmax = 5, M = 5, DX = 1. -/
theorem Basis_boundary_spec_witness :
    Beta ⟨0, 5, 5, 1⟩ 2 = 0 ∧ Basis ⟨0, 5, 5, 1⟩ 2 9 = 0 ∧
      Basis ⟨0, 5, 5, 1⟩ 0 3 =
        rawBasis ⟨0, 5, 5, 1⟩ 0 3 + Beta ⟨0, 5, 5, 1⟩ 0 * Basis ⟨0, 5, 5, 1⟩ (-1) 3 ∧
      Basis ⟨0, 5, 5, 1⟩ 5 3 =
        rawBasis ⟨0, 5, 5, 1⟩ 5 3 + Beta ⟨0, 5, 5, 1⟩ 5 * Basis ⟨0, 5, 5, 1⟩ 6 3 := by
  have h := Basis_boundary_spec ⟨0, 5, 5, 1⟩ (by norm_num) (by norm_num)
  have h2 := (h 2 9).1 (by decide) (by decide)
  exact ⟨h2.1, h2.2 (by norm_num), (h 0 3).2.1 (by norm_num),
    (h 5 3).2.2 (by norm_num)⟩

/-! ## Domain / grid setup (`BSplineBase::Setup` and `BSplineBase::Ratio`)

`Ratio(ni)` computes `deltax = (xmax-xmin)/ni`, `ratiof = deltax/waveLength`
and `ratiod = NX/(ni+1)`, and returns `ratiod ≥ 1`.  Both `Setup` loops call
`Ratio(++ni)` and stop (or fail) as soon as it returns false, which happens
exactly when `ni + 1 > NX`; the loops therefore perform fewer than `NX + 2`
iterations, which is the fuel supplied below. -/

/-- The min/max scan at the top of `BSplineBase::Setup`: starting from
`(X[0], X[0])`, each further sample lowers the min or (`else if`) raises the
max. -/
def minmaxFold (x0 : ℚ) (rest : List ℚ) : ℚ × ℚ :=
  rest.foldl
    (fun p xi => if xi < p.1 then (xi, p.2) else if p.2 < xi then (p.1, xi) else p)
    (x0, x0)

theorem minmaxFold_eq_aux :
    ∀ (l : List ℚ) (a b : ℚ), a ≤ b →
      l.foldl
          (fun p xi =>
            if xi < p.1 then (xi, p.2) else if p.2 < xi then (p.1, xi) else p)
          (a, b)
        = (l.foldl min a, l.foldl max b) := by
  intro l
  induction l with
  | nil => intro a b _; rfl
  | cons x xs ih =>
      intro a b hab
      simp only [List.foldl_cons]
      by_cases h1 : x < a
      · rw [if_pos h1, ih x b (by linarith)]
        rw [min_eq_right h1.le, max_eq_left (by linarith)]
      · rw [if_neg h1]
        by_cases h2 : b < x
        · rw [if_pos h2, ih a x (by linarith)]
          rw [min_eq_left (by linarith), max_eq_right h2.le]
        · rw [if_neg h2, ih a b hab]
          rw [min_eq_left (by linarith), max_eq_left (by linarith)]

theorem minmaxFold_eq (x0 : ℚ) (rest : List ℚ) :
    minmaxFold x0 rest = (rest.foldl min x0, rest.foldl max x0) :=
  minmaxFold_eq_aux rest x0 x0 le_rfl

/-- The first `Setup` loop: `do { if (!Ratio(++ni, ...)) return 0; } while
(ratiof > fmin)` with `fmin = 2.0`. -/
def growLoop (xmin xmax wl : ℚ) (NX : ℕ) : ℕ → ℕ → Option ℕ
  | 0, _ => none
  | fuel + 1, ni =>
      let ni1 := ni + 1
      let deltax := (xmax - xmin) / (ni1 : ℚ)
      let ratiof := deltax / wl
      let rd := (NX : ℚ) / ((ni1 : ℚ) + 1)
      if 1 ≤ rd then
        if 2 < ratiof then growLoop xmin xmax wl NX fuel ni1 else some ni1
      else none

/-- The second `Setup` loop: `do { if (!Ratio(++ni, ..., &ratiod) || ratiof >
15.0) { Ratio(--ni, ...); break; } } while (ratiof < 4 || ratiod > 2.0)`.
The back-off branch returns the decremented count; exhausting the fuel
(unreachable, given the guard) keeps the current count. -/
def refineLoop (xmin xmax wl : ℚ) (NX : ℕ) : ℕ → ℕ → ℕ
  | 0, ni => ni
  | fuel + 1, ni =>
      let ni1 := ni + 1
      let deltax := (xmax - xmin) / (ni1 : ℚ)
      let ratiof := deltax / wl
      let rd := (NX : ℚ) / ((ni1 : ℚ) + 1)
      if ¬(1 ≤ rd) ∨ 15 < ratiof then ni
      else if ratiof < 4 ∨ 2 < rd then refineLoop xmin xmax wl NX fuel ni1
      else ni1

/-- `BSplineBase::Setup`: min/max of the samples, the wavelength/span check,
then the two `Ratio` loops starting from the candidate count 9; on success
`M` is the final count and `DX = (xmax - xmin)/M` (the value the last
`Ratio` call stored in `deltax`).  An empty sample list would read `X[0]` in
the source; it is modelled as failure and excluded by every theorem. -/
def Setup (X : List ℚ) (wl : ℚ) : Option (ℕ × ℚ) :=
  match X with
  | [] => none
  | x0 :: rest =>
      let xmin := (minmaxFold x0 rest).1
      let xmax := (minmaxFold x0 rest).2
      if xmax - xmin < wl then none
      else
        match growLoop xmin xmax wl (rest.length + 1) (rest.length + 3) 9 with
        | none => none
        | some n0 =>
            let M := refineLoop xmin xmax wl (rest.length + 1) (rest.length + 3) n0
            some (M, (xmax - xmin) / (M : ℚ))

theorem growLoop_succ (xmin xmax wl : ℚ) (NX fuel ni : ℕ) :
    growLoop xmin xmax wl NX (fuel + 1) ni =
      if 1 ≤ (NX : ℚ) / (((ni + 1 : ℕ) : ℚ) + 1) then
        if 2 < (xmax - xmin) / ((ni + 1 : ℕ) : ℚ) / wl then
          growLoop xmin xmax wl NX fuel (ni + 1)
        else some (ni + 1)
      else none := rfl

theorem refineLoop_succ (xmin xmax wl : ℚ) (NX fuel ni : ℕ) :
    refineLoop xmin xmax wl NX (fuel + 1) ni =
      if ¬(1 ≤ (NX : ℚ) / (((ni + 1 : ℕ) : ℚ) + 1)) ∨
          15 < (xmax - xmin) / ((ni + 1 : ℕ) : ℚ) / wl then ni
      else if (xmax - xmin) / ((ni + 1 : ℕ) : ℚ) / wl < 4 ∨
          2 < (NX : ℚ) / (((ni + 1 : ℕ) : ℚ) + 1) then
        refineLoop xmin xmax wl NX fuel (ni + 1)
      else ni + 1 := rfl

theorem Setup_cons (x0 : ℚ) (rest : List ℚ) (wl : ℚ) :
    Setup (x0 :: rest) wl =
      if (minmaxFold x0 rest).2 - (minmaxFold x0 rest).1 < wl then none
      else
        match growLoop (minmaxFold x0 rest).1 (minmaxFold x0 rest).2 wl
            (rest.length + 1) (rest.length + 3) 9 with
        | none => none
        | some n0 =>
            some (refineLoop (minmaxFold x0 rest).1 (minmaxFold x0 rest).2 wl
                (rest.length + 1) (rest.length + 3) n0,
              ((minmaxFold x0 rest).2 - (minmaxFold x0 rest).1) /
                ((refineLoop (minmaxFold x0 rest).1 (minmaxFold x0 rest).2 wl
                    (rest.length + 1) (rest.length + 3) n0 : ℕ) : ℚ)) := rfl

/-- Claim C1 (the half that holds; see the C1 record for the half that does
not): when the requested wavelength strictly exceeds the span of the samples,
`Setup` reports failure, choosing no M and no DX. -/
theorem Setup_fails_when_wavelength_exceeds_span :
    ∀ (x0 : ℚ) (rest : List ℚ) (wl : ℚ),
      (rest.foldl max x0) - (rest.foldl min x0) < wl →
      Setup (x0 :: rest) wl = none := by
  intro x0 rest wl h
  simp only [Setup, minmaxFold_eq]
  rw [if_pos h]

/-- Witness for C1: samples 0..9 (span 9) with wavelength 20. -/
theorem Setup_fails_when_wavelength_exceeds_span_witness :
    Setup [0, 1, 2, 3, 4, 5, 6, 7, 8, 9] 20 = none := by
  apply Setup_fails_when_wavelength_exceeds_span
  norm_num [List.foldl]

/-- The growth loop only ever increments: a successful result exceeds the
starting candidate. -/
theorem growLoop_gt (xmin xmax wl : ℚ) (NX : ℕ) :
    ∀ (fuel ni n : ℕ), growLoop xmin xmax wl NX fuel ni = some n → ni + 1 ≤ n := by
  intro fuel
  induction fuel with
  | zero => intro ni n h; simp [growLoop] at h
  | succ k ih =>
      intro ni n h
      simp only [growLoop] at h
      split at h
      · split at h
        · exact le_trans (by omega) (ih (ni + 1) n h)
        · simp only [Option.some.injEq] at h
          omega
      · exact absurd h (by simp)

/-- The refinement loop never returns less than its starting count: its
single back-off step undoes only its own most recent increment. -/
theorem refineLoop_ge (xmin xmax wl : ℚ) (NX : ℕ) :
    ∀ (fuel ni : ℕ), ni ≤ refineLoop xmin xmax wl NX fuel ni := by
  intro fuel
  induction fuel with
  | zero => intro ni; simp [refineLoop]
  | succ k ih =>
      intro ni
      simp only [refineLoop]
      split
      · exact le_rfl
      · split
        · exact le_trans (by omega) (ih (ni + 1))
        · omega

/-- Claim C10: whenever `Setup` succeeds, the chosen node-interval count M is
at least 10 — the search starts at candidate 9 and increments before the
first evaluation, and the refinement loop's back-off never drops below the
growth loop's result. -/
theorem Setup_M_at_least_ten :
    ∀ (X : List ℚ) (wl : ℚ) (M : ℕ) (DX : ℚ),
      Setup X wl = some (M, DX) → 10 ≤ M := by
  intro X wl M DX h
  match X with
  | [] => simp [Setup] at h
  | x0 :: rest =>
      simp only [Setup] at h
      split at h
      · exact absurd h (by simp)
      · split at h
        · exact absurd h (by simp)
        · rename_i n0 hgrow
          have h1 : 9 + 1 ≤ n0 := growLoop_gt _ _ _ _ _ _ _ hgrow
          have h2 : n0 ≤ refineLoop (minmaxFold x0 rest).1 (minmaxFold x0 rest).2
              wl (rest.length + 1) (rest.length + 3) n0 := refineLoop_ge _ _ _ _ _ _
          simp only [Option.some.injEq, Prod.mk.injEq] at h
          obtain ⟨hM, _⟩ := h
          omega

/-- Concrete evaluation for the 12-sample domain 0..11 with wavelength 4:
`Setup` succeeds with M = 11 and DX = 1. -/
theorem Setup_twelve_samples :
    Setup [0, 1, 2, 3, 4, 5, 6, 7, 8, 9, 10, 11] 4 = some (11, 1) := by
  have hmm : minmaxFold 0 [1, 2, 3, 4, 5, 6, 7, 8, 9, 10, 11] = (0, 11) := by
    norm_num [minmaxFold, List.foldl]
  have hg : growLoop 0 11 4 12 14 9 = some 10 := by
    rw [growLoop_succ]
    norm_num
  have hr : refineLoop 0 11 4 12 14 10 = 11 := by
    rw [refineLoop_succ]
    norm_num
    rw [refineLoop_succ]
    norm_num
  rw [Setup_cons, hmm]
  simp only [List.length_cons, List.length_nil]
  norm_num [hg, hr]

/-- Witness for C10: the concrete 12-sample domain yields M = 11 ≥ 10. -/
theorem Setup_M_at_least_ten_witness :
    10 ≤ 11 ∧ Setup [0, 1, 2, 3, 4, 5, 6, 7, 8, 9, 10, 11] 4 = some (11, 1) :=
  ⟨Setup_M_at_least_ten [0, 1, 2, 3, 4, 5, 6, 7, 8, 9, 10, 11] 4 11 1
      Setup_twelve_samples,
    Setup_twelve_samples⟩

/-! ## The grid-search step sequence as the specification words it

Two further grid-search definitions are compared against `Setup`.
`claimSetup` transcribes claim C4's description literally; the counterexample
below shows it disagrees with the code.  `describedSetup` transcribes the
amended description; it is proved to coincide with `Setup` for every
positive wavelength. -/

/-- The growth phase as claim C4 words it: grow one step at a time while the
wavelength is resolved by fewer than 2.0 node-intervals per cutoff, i.e.
while `waveLength/deltax < 2`; the points-per-interval guard is kept as in
the code. -/
def claimGrowLoop (xmin xmax wl : ℚ) (NX : ℕ) : ℕ → ℕ → Option ℕ
  | 0, _ => none
  | fuel + 1, ni =>
      let ni1 := ni + 1
      let deltax := (xmax - xmin) / (ni1 : ℚ)
      let rd := (NX : ℚ) / ((ni1 : ℚ) + 1)
      if 1 ≤ rd then
        if wl / deltax < 2 then claimGrowLoop xmin xmax wl NX fuel ni1
        else some ni1
      else none

/-- The refinement phase as claim C4 words it: refine upward while the
data-points-per-interval ratio exceeds 2.0 and the interval-to-wavelength
ratio is below 4, up to the ceiling 15, backing off one step the moment
either bound is crossed. -/
def claimRefineLoop (xmin xmax wl : ℚ) (NX : ℕ) : ℕ → ℕ → ℕ
  | 0, ni => ni
  | fuel + 1, ni =>
      let ni1 := ni + 1
      let deltax := (xmax - xmin) / (ni1 : ℚ)
      let ratiof := deltax / wl
      let rd := (NX : ℚ) / ((ni1 : ℚ) + 1)
      if ¬(1 ≤ rd) ∨ 15 < ratiof then ni
      else if 2 < rd ∧ ratiof < 4 then claimRefineLoop xmin xmax wl NX fuel ni1
      else ni

/-- Grid setup as claim C4 describes it (same shell as `Setup`, with the
claim's growth and refinement conditions). -/
def claimSetup (X : List ℚ) (wl : ℚ) : Option (ℕ × ℚ) :=
  match X with
  | [] => none
  | x0 :: rest =>
      let xmin := (minmaxFold x0 rest).1
      let xmax := (minmaxFold x0 rest).2
      if xmax - xmin < wl then none
      else
        match claimGrowLoop xmin xmax wl (rest.length + 1) (rest.length + 3) 9 with
        | none => none
        | some n0 =>
            let M := claimRefineLoop xmin xmax wl (rest.length + 1) (rest.length + 3) n0
            some (M, (xmax - xmin) / (M : ℚ))

theorem claimGrowLoop_succ (xmin xmax wl : ℚ) (NX fuel ni : ℕ) :
    claimGrowLoop xmin xmax wl NX (fuel + 1) ni =
      if 1 ≤ (NX : ℚ) / (((ni + 1 : ℕ) : ℚ) + 1) then
        if wl / ((xmax - xmin) / ((ni + 1 : ℕ) : ℚ)) < 2 then
          claimGrowLoop xmin xmax wl NX fuel (ni + 1)
        else some (ni + 1)
      else none := rfl

/-- The 20 samples 0, 5, 10, ..., 95 (span 95). -/
def X20 : List ℚ :=
  [0, 5, 10, 15, 20, 25, 30, 35, 40, 45, 50, 55, 60, 65, 70, 75, 80, 85, 90, 95]

/-- Counterexample to claim C4 as stated: on the 20 samples 0, 5, ..., 95
with wavelength 4, the step sequence the claim describes fails (its growth
condition `waveLength/deltax < 2` keeps growing until the points-per-interval
guard gives out), while the code's `Setup` succeeds with M = 19, DX = 5. -/
theorem claimSetup_disagrees_with_Setup :
    claimSetup X20 4 = none ∧ Setup X20 4 = some (19, 5) := by
  have hmm : minmaxFold 0 [5, 10, 15, 20, 25, 30, 35, 40, 45, 50, 55, 60, 65,
      70, 75, 80, 85, 90, 95] = (0, 95) := by
    norm_num [minmaxFold, List.foldl]
  constructor
  · show claimSetup ((0 : ℚ) :: [5, 10, 15, 20, 25, 30, 35, 40, 45, 50, 55, 60,
      65, 70, 75, 80, 85, 90, 95]) 4 = none
    have hg : claimGrowLoop 0 95 4 20 22 9 = none := by
      rw [claimGrowLoop_succ]; norm_num
      rw [claimGrowLoop_succ]; norm_num
      rw [claimGrowLoop_succ]; norm_num
      rw [claimGrowLoop_succ]; norm_num
      rw [claimGrowLoop_succ]; norm_num
      rw [claimGrowLoop_succ]; norm_num
      rw [claimGrowLoop_succ]; norm_num
      rw [claimGrowLoop_succ]; norm_num
      rw [claimGrowLoop_succ]; norm_num
      rw [claimGrowLoop_succ]; norm_num
      rw [claimGrowLoop_succ]; norm_num
    simp only [claimSetup, hmm]
    simp only [List.length_cons, List.length_nil]
    norm_num [hg]
  · show Setup ((0 : ℚ) :: [5, 10, 15, 20, 25, 30, 35, 40, 45, 50, 55, 60,
      65, 70, 75, 80, 85, 90, 95]) 4 = some (19, 5)
    have hg : growLoop 0 95 4 20 22 9 = some 12 := by
      rw [growLoop_succ]; norm_num
      rw [growLoop_succ]; norm_num
      rw [growLoop_succ]; norm_num
    have hr : refineLoop 0 95 4 20 22 12 = 19 := by
      rw [refineLoop_succ]; norm_num
      rw [refineLoop_succ]; norm_num
      rw [refineLoop_succ]; norm_num
      rw [refineLoop_succ]; norm_num
      rw [refineLoop_succ]; norm_num
      rw [refineLoop_succ]; norm_num
      rw [refineLoop_succ]; norm_num
      rw [refineLoop_succ]; norm_num
    rw [Setup_cons, hmm]
    simp only [List.length_cons, List.length_nil]
    norm_num [hg, hr]

/-- The growth phase as the amended claim words it: fail the moment fewer
than one data point per node interval remains (`NX < ni+2`), and grow while
each node interval spans more than twice the cutoff wavelength. -/
def describedGrowLoop (xmin xmax wl : ℚ) (NX : ℕ) : ℕ → ℕ → Option ℕ
  | 0, _ => none
  | fuel + 1, ni =>
      let ni1 := ni + 1
      let deltax := (xmax - xmin) / (ni1 : ℚ)
      if ((ni1 : ℚ) + 1) ≤ (NX : ℚ) then
        if 2 * wl < deltax then describedGrowLoop xmin xmax wl NX fuel ni1
        else some ni1
      else none

/-- The refinement phase as the amended claim words it: refine upward while
the interval-to-wavelength ratio is below 4 or the points-per-interval ratio
exceeds 2, backing off one step the moment fewer than one data point per
interval remains or the interval spans more than 15 wavelengths. -/
def describedRefineLoop (xmin xmax wl : ℚ) (NX : ℕ) : ℕ → ℕ → ℕ
  | 0, ni => ni
  | fuel + 1, ni =>
      let ni1 := ni + 1
      let deltax := (xmax - xmin) / (ni1 : ℚ)
      if (NX : ℚ) < (ni1 : ℚ) + 1 ∨ 15 * wl < deltax then ni
      else if deltax < 4 * wl ∨ 2 * ((ni1 : ℚ) + 1) < (NX : ℚ) then
        describedRefineLoop xmin xmax wl NX fuel ni1
      else ni1

/-- Grid setup as the amended claim describes it. -/
def describedSetup (X : List ℚ) (wl : ℚ) : Option (ℕ × ℚ) :=
  match X with
  | [] => none
  | x0 :: rest =>
      let xmin := (minmaxFold x0 rest).1
      let xmax := (minmaxFold x0 rest).2
      if xmax - xmin < wl then none
      else
        match describedGrowLoop xmin xmax wl (rest.length + 1) (rest.length + 3) 9 with
        | none => none
        | some n0 =>
            let M := describedRefineLoop xmin xmax wl (rest.length + 1)
              (rest.length + 3) n0
            some (M, (xmax - xmin) / (M : ℚ))

theorem describedGrowLoop_succ (xmin xmax wl : ℚ) (NX fuel ni : ℕ) :
    describedGrowLoop xmin xmax wl NX (fuel + 1) ni =
      if ((((ni + 1 : ℕ)) : ℚ) + 1) ≤ (NX : ℚ) then
        if 2 * wl < (xmax - xmin) / ((ni + 1 : ℕ) : ℚ) then
          describedGrowLoop xmin xmax wl NX fuel (ni + 1)
        else some (ni + 1)
      else none := rfl

theorem describedRefineLoop_succ (xmin xmax wl : ℚ) (NX fuel ni : ℕ) :
    describedRefineLoop xmin xmax wl NX (fuel + 1) ni =
      if (NX : ℚ) < ((ni + 1 : ℕ) : ℚ) + 1 ∨
          15 * wl < (xmax - xmin) / ((ni + 1 : ℕ) : ℚ) then ni
      else if (xmax - xmin) / ((ni + 1 : ℕ) : ℚ) < 4 * wl ∨
          2 * (((ni + 1 : ℕ) : ℚ) + 1) < (NX : ℚ) then
        describedRefineLoop xmin xmax wl NX fuel (ni + 1)
      else ni + 1 := rfl

theorem one_le_rd_iff (NX k : ℕ) :
    (1 : ℚ) ≤ (NX : ℚ) / ((k : ℚ) + 1) ↔ ((k : ℚ) + 1) ≤ (NX : ℚ) := by
  rw [le_div_iff₀ (by positivity), one_mul]

theorem two_lt_rd_iff (NX k : ℕ) :
    (2 : ℚ) < (NX : ℚ) / ((k : ℚ) + 1) ↔ 2 * ((k : ℚ) + 1) < (NX : ℚ) := by
  rw [lt_div_iff₀ (by positivity)]

theorem ratiof_lt_iff (dx wl c : ℚ) (hwl : 0 < wl) : dx / wl < c ↔ dx < c * wl := by
  rw [div_lt_iff₀ hwl]

theorem lt_ratiof_iff (dx wl c : ℚ) (hwl : 0 < wl) : c < dx / wl ↔ c * wl < dx := by
  rw [lt_div_iff₀ hwl]

theorem describedGrowLoop_eq (xmin xmax wl : ℚ) (NX : ℕ) (hwl : 0 < wl) :
    ∀ (fuel ni : ℕ),
      describedGrowLoop xmin xmax wl NX fuel ni = growLoop xmin xmax wl NX fuel ni := by
  intro fuel
  induction fuel with
  | zero => intro ni; rfl
  | succ k ih =>
      intro ni
      have hdiv : ∀ dx c : ℚ, c < dx / wl ↔ c * wl < dx := fun dx c => lt_div_iff₀ hwl
      rw [describedGrowLoop_succ, growLoop_succ]
      simp only [one_le_rd_iff, hdiv, ih]

theorem describedRefineLoop_eq (xmin xmax wl : ℚ) (NX : ℕ) (hwl : 0 < wl) :
    ∀ (fuel ni : ℕ),
      describedRefineLoop xmin xmax wl NX fuel ni =
        refineLoop xmin xmax wl NX fuel ni := by
  intro fuel
  induction fuel with
  | zero => intro ni; rfl
  | succ k ih =>
      intro ni
      have hdiv : ∀ dx c : ℚ, c < dx / wl ↔ c * wl < dx := fun dx c => lt_div_iff₀ hwl
      have hdiv2 : ∀ dx c : ℚ, dx / wl < c ↔ dx < c * wl := fun dx c => div_lt_iff₀ hwl
      rw [describedRefineLoop_succ, refineLoop_succ]
      simp only [one_le_rd_iff, two_lt_rd_iff, not_le, hdiv, hdiv2, ih]

/-- Claim C4 as amended: grid setup follows the exact deterministic step
sequence given by the amended description (growth while an interval spans
more than twice the wavelength, refinement while the interval-to-wavelength
ratio is below 4 or the points-per-interval ratio exceeds 2, back-off on the
points guard or the 15-wavelength ceiling); being a pure function of the
samples and the wavelength, re-running it yields the same M and DX. -/
theorem Setup_follows_described_sequence :
    ∀ (X : List ℚ) (wl : ℚ), 0 < wl → describedSetup X wl = Setup X wl := by
  intro X wl hwl
  match X with
  | [] => rfl
  | x0 :: rest =>
      simp only [describedSetup, Setup, describedGrowLoop_eq _ _ _ _ hwl,
        describedRefineLoop_eq _ _ _ _ hwl]

/-- Witness for the amended C4 on the 12-sample domain with wavelength 4. -/
theorem Setup_follows_described_sequence_witness :
    describedSetup [0, 1, 2, 3, 4, 5, 6, 7, 8, 9, 10, 11] 4 =
        Setup [0, 1, 2, 3, 4, 5, 6, 7, 8, 9, 10, 11] 4 ∧
      Setup [0, 1, 2, 3, 4, 5, 6, 7, 8, 9, 10, 11] 4 = some (11, 1) :=
  ⟨Setup_follows_described_sequence [0, 1, 2, 3, 4, 5, 6, 7, 8, 9, 10, 11] 4
      (by norm_num),
    Setup_twelve_samples⟩

/-! ## Matrix assembly: `qDelta`, `calculateQ` and `addP`

`calculateQ` first fills the band with `qDelta` values, then overwrites the
two 2×4 corner blocks with boundary-condition corrections.  The corner code
references a vector `qdelta` that the active code never declares — it is
defined only inside the adjacent `#ifdef notdef` block as the `qinterior`
row scaled by `DX * alpha` — and the lower-right block indexes `Beta` with
bracket syntax, which is read here as indexing the fixed
`BoundaryConditions[BC]` row (the spec flags both inconsistencies in §9;
claim C2 is insensitive to either reading).  The statement `qdelta[j-i];` in
the upper-left block has no effect and is omitted. -/

/-- The static `qparts` table from `BSplineBase::qDelta`. -/
def qparts (r c : ℤ) : ℚ :=
  if r = 0 then
    if c = 0 then 0.11250 else if c = 1 then 0.63750 else
    if c = 2 then 0.63750 else if c = 3 then 0.11250 else 0
  else if r = 1 then
    if c = 0 then 0 else if c = 1 then 0.13125 else
    if c = 2 then -0.54375 else if c = 3 then 0.13125 else 0
  else if r = 2 then
    if c = 0 then 0 else if c = 1 then 0 else
    if c = 2 then -0.22500 else if c = 3 then -0.22500 else 0
  else if r = 3 then
    if c = 0 then 0 else if c = 1 then 0 else
    if c = 2 then 0 else if c = 3 then -0.01875 else 0
  else 0

/-- The static `qinterior` row sums. -/
def qinterior (k : ℤ) : ℚ :=
  if k = 0 then 1.5 else if k = 1 then -0.28125 else
  if k = 2 then -0.450 else if k = 3 then -0.01875 else 0

/-- `BSplineBase::qDelta` (the regularization weight `alpha` is passed as a
parameter; the source reads the member set by `setDomain`). -/
def qDelta (d : SplineDom) (alpha : ℚ) (m1 m2 : ℤ) : ℚ :=
  let p := if m2 < m1 then (m2, m1) else (m1, m2)
  if 3 < p.2 - p.1 then 0
  else
    ((rangeIccZ (max (p.1 - 2) 0) (min (p.1 + 2) (d.M : ℤ) - 1)).foldl
        (fun q mm => q + qparts (p.2 - p.1) (mm - p.1 + 2)) 0) *
      d.DX * alpha

/-- The `qdelta` vector of the corner blocks: `qinterior` scaled by
`DX * alpha`, per the disabled block that is its only definition. -/
def qdeltaVec (d : SplineDom) (alpha : ℚ) (k : ℤ) : ℚ :=
  qinterior k * (d.DX * alpha)

/-- The value stored by the upper-left corner loop of `calculateQ` (`q = 0`
plus the two conditional `qdelta` terms and the `b1*b2*qdelta[0]` term). -/
def qcornerLow (d : SplineDom) (alpha : ℚ) (i j : ℤ) : ℚ :=
  let b1 := Beta d i
  let b2 := Beta d j
  (if i + 1 < 4 then b2 * qdeltaVec d alpha (i + 1) else 0) +
    (if j + 1 < 4 then b1 * qdeltaVec d alpha (j + 1) else 0) +
    b1 * b2 * qdeltaVec d alpha 0

/-- The value stored by the lower-right corner loop of `calculateQ`, with
`Beta[k]` read as `BoundaryConditions[BC][k]`. -/
def qcornerHigh (d : SplineDom) (alpha : ℚ) (i j : ℤ) : ℚ :=
  let b1 := BoundaryConditions BC (i - ((d.M : ℤ) - 1))
  let b2 := if (d.M : ℤ) - 1 ≤ j then BoundaryConditions BC (j - ((d.M : ℤ) - 1))
    else 0
  qdeltaVec d alpha (i - j) +
    (if (d.M : ℤ) + 1 - i < 4 then b2 * qdeltaVec d alpha ((d.M : ℤ) + 1 - i) else 0) +
    (if (d.M : ℤ) + 1 - j < 4 then b1 * qdeltaVec d alpha ((d.M : ℤ) + 1 - j) else 0) +
    b1 * b2 * qdeltaVec d alpha 0

/-- The band-filling loop of `calculateQ`: for each i, `Q[i][i] = qDelta(i,i)`
and `Q[i][i+j] = Q[i+j][i] = qDelta(i, i+j)` for `j = 1..3` while `i+j ≤ M`. -/
def calculateQphase1 (d : SplineDom) (alpha : ℚ) : Mat :=
  (rangeIccZ 0 (d.M : ℤ)).foldl
    (fun Q i =>
      (rangeIccZ 1 (min 3 ((d.M : ℤ) - i))).foldl
        (fun Q j => symSet Q i (i + j) (qDelta d alpha i (i + j)))
        (symSet Q i i (qDelta d alpha i i)))
    (fun _ _ => 0)

/-- The upper-left boundary block: for `i = 0..1`, `j = i..i+3`,
`Q[j][i] = Q[i][j] = q`. -/
def calculateQphase2 (d : SplineDom) (alpha : ℚ) (Q : Mat) : Mat :=
  (rangeIccZ 0 1).foldl
    (fun Q i =>
      (rangeIccZ i (i + 3)).foldl
        (fun Q j => symSet Q i j (qcornerLow d alpha i j)) Q)
    Q

/-- The lower-right boundary block: for `i = M-1..M`, `j = i-3..i`,
`Q[j][i] = Q[i][j] = q`. -/
def calculateQphase3 (d : SplineDom) (alpha : ℚ) (Q : Mat) : Mat :=
  (rangeIccZ ((d.M : ℤ) - 1) (d.M : ℤ)).foldl
    (fun Q i =>
      (rangeIccZ (i - 3) i).foldl
        (fun Q j => symSet Q j i (qcornerHigh d alpha i j)) Q)
    Q

/-- `BSplineBase::calculateQ`. -/
def calculateQ (d : SplineDom) (alpha : ℚ) : Mat :=
  calculateQphase3 d alpha (calculateQphase2 d alpha (calculateQphase1 d alpha))

/-- The inner loop of `addP`: for `n = m+1 .. min(M, m+3)`, accumulate
`Basis(m,x)*Basis(n,x)*DX` into `P[m][n]` and `P[n][m]`. -/
def addPinner (d : SplineDom) (x : ℚ) (m : ℤ) (P : Mat) : Mat :=
  (rangeIccZ (m + 1) (min (d.M : ℤ) (m + 3))).foldl
    (fun P n => symAdd P m n (Basis d m x * Basis d n x * d.DX)) P

/-- The per-sample loop body of `addP`: locate the containing node interval
`m0 = (x - xmin)/DX` (an int truncation; samples lie at or above `xmin`, so
it is the floor) and, for each `m` in the window `max(0, m0-2) ..
min(M, m0+2)`, accumulate the diagonal term and run the inner loop. -/
def addPouter (d : SplineDom) (P : Mat) (x : ℚ) : Mat :=
  let m0 := ⌊(x - d.xmin) / d.DX⌋
  (rangeIccZ (max 0 (m0 - 2)) (min (d.M : ℤ) (m0 + 2))).foldl
    (fun P m => addPinner d x m (symAdd P m m (Basis d m x * Basis d m x * d.DX)))
    P

/-- `BSplineBase::addP`'s matrix P: the windowed accumulation over all
samples, starting from the zero matrix `C_matrix<float> P(M+1, M+1, 0.0)`. -/
def addPmat (d : SplineDom) (X : List ℚ) : Mat :=
  X.foldl (addPouter d) (fun _ _ => 0)

/-- The final system matrix: `base->Q += P`, an entrywise addition over rows
and columns `0..M`. -/
def QplusP (d : SplineDom) (X : List ℚ) (alpha : ℚ) : Mat := fun a b =>
  if 0 ≤ a ∧ a ≤ (d.M : ℤ) ∧ 0 ≤ b ∧ b ≤ (d.M : ℤ) then
    calculateQ d alpha a b + addPmat d X a b
  else calculateQ d alpha a b

/-- The naive dense reference matrix of claim C7:
`P[m][n] = Σ_j basis(m, x_j) · basis(n, x_j) · DX`. -/
def Pdense (d : SplineDom) (X : List ℚ) (a b : ℤ) : ℚ :=
  (X.map (fun xj => Basis d a xj * Basis d b xj * d.DX)).sum

/-! ### Symmetry and bandedness (claim C2) -/

/-- A matrix that is symmetric and zero outside the band `|i - j| ≤ 3`. -/
def SymBand (Q : Mat) : Prop :=
  (∀ a b, Q a b = Q b a) ∧ (∀ a b, 3 < |a - b| → Q a b = 0)

theorem SymBand_zero : SymBand (fun _ _ => (0 : ℚ)) :=
  ⟨fun _ _ => rfl, fun _ _ _ => rfl⟩

theorem SymBand_symSet (Q : Mat) (i j : ℤ) (v : ℚ) (h : SymBand Q)
    (hij : |i - j| ≤ 3) : SymBand (symSet Q i j v) := by
  constructor
  · intro a b
    simp only [symSet]
    by_cases hc : (a = i ∧ b = j) ∨ (a = j ∧ b = i)
    · rw [if_pos hc, if_pos (by tauto)]
    · rw [if_neg hc, if_neg (by tauto), h.1 a b]
  · intro a b hab
    simp only [symSet]
    have hc : ¬((a = i ∧ b = j) ∨ (a = j ∧ b = i)) := by
      rintro (⟨rfl, rfl⟩ | ⟨rfl, rfl⟩)
      · omega
      · rw [abs_sub_comm] at hab; omega
    rw [if_neg hc, h.2 a b hab]

theorem SymBand_symAdd (Q : Mat) (i j : ℤ) (v : ℚ) (h : SymBand Q)
    (hij : |i - j| ≤ 3) : SymBand (symAdd Q i j v) := by
  constructor
  · intro a b
    simp only [symAdd]
    by_cases hc : (a = i ∧ b = j) ∨ (a = j ∧ b = i)
    · rw [if_pos hc, if_pos (by tauto), h.1 a b]
    · rw [if_neg hc, if_neg (by tauto), h.1 a b]
  · intro a b hab
    simp only [symAdd]
    have hc : ¬((a = i ∧ b = j) ∨ (a = j ∧ b = i)) := by
      rintro (⟨rfl, rfl⟩ | ⟨rfl, rfl⟩)
      · omega
      · rw [abs_sub_comm] at hab; omega
    rw [if_neg hc, h.2 a b hab]

theorem SymBand_calculateQphase1 (d : SplineDom) (alpha : ℚ) :
    SymBand (calculateQphase1 d alpha) := by
  apply foldl_inv SymBand _ _ _ SymBand_zero
  intro Q i _ hQ
  apply foldl_inv SymBand
  · exact SymBand_symSet Q i i _ hQ (by simp)
  · intro Q2 j hj hQ2
    rw [mem_rangeIccZ] at hj
    exact SymBand_symSet Q2 i (i + j) _ hQ2 (by rw [abs_le]; omega)

theorem SymBand_calculateQphase2 (d : SplineDom) (alpha : ℚ) (Q : Mat)
    (h : SymBand Q) : SymBand (calculateQphase2 d alpha Q) := by
  apply foldl_inv SymBand _ _ _ h
  intro Q1 i _ hQ1
  apply foldl_inv SymBand _ _ _ hQ1
  intro Q2 j hj hQ2
  rw [mem_rangeIccZ] at hj
  exact SymBand_symSet Q2 i j _ hQ2 (by rw [abs_le]; omega)

theorem SymBand_calculateQphase3 (d : SplineDom) (alpha : ℚ) (Q : Mat)
    (h : SymBand Q) : SymBand (calculateQphase3 d alpha Q) := by
  apply foldl_inv SymBand _ _ _ h
  intro Q1 i _ hQ1
  apply foldl_inv SymBand _ _ _ hQ1
  intro Q2 j hj hQ2
  rw [mem_rangeIccZ] at hj
  exact SymBand_symSet Q2 j i _ hQ2 (by rw [abs_le]; omega)

theorem SymBand_calculateQ (d : SplineDom) (alpha : ℚ) :
    SymBand (calculateQ d alpha) :=
  SymBand_calculateQphase3 d alpha _
    (SymBand_calculateQphase2 d alpha _ (SymBand_calculateQphase1 d alpha))

theorem SymBand_addPouter (d : SplineDom) (P : Mat) (x : ℚ) (h : SymBand P) :
    SymBand (addPouter d P x) := by
  apply foldl_inv SymBand _ _ _ h
  intro P1 m _ hP1
  apply foldl_inv SymBand
  · exact SymBand_symAdd P1 m m _ hP1 (by simp)
  · intro P2 n hn hP2
    rw [mem_rangeIccZ] at hn
    exact SymBand_symAdd P2 m n _ hP2 (by rw [abs_le]; omega)

theorem SymBand_addPmat (d : SplineDom) (X : List ℚ) :
    SymBand (addPmat d X) := by
  apply foldl_inv SymBand _ _ _ SymBand_zero
  intro P x _ hP
  exact SymBand_addPouter d P x hP

/-- Claim C2: for every domain, after assembly (`calculateQ` then `addP`) the
system matrix is symmetric on `0..M` and strictly banded: entries more than 3
off the diagonal are exactly zero. -/
theorem Q_symmetric_banded :
    ∀ (d : SplineDom) (X : List ℚ) (alpha : ℚ) (i j : ℤ),
      0 ≤ i → i ≤ (d.M : ℤ) → 0 ≤ j → j ≤ (d.M : ℤ) →
      QplusP d X alpha i j = QplusP d X alpha j i ∧
        (3 < |i - j| → QplusP d X alpha i j = 0) := by
  intro d X alpha i j hi0 hiM hj0 hjM
  have hQ := SymBand_calculateQ d alpha
  have hP := SymBand_addPmat d X
  constructor
  · simp only [QplusP]
    rw [if_pos ⟨hi0, hiM, hj0, hjM⟩, if_pos ⟨hj0, hjM, hi0, hiM⟩,
      hQ.1 i j, hP.1 i j]
  · intro hband
    simp only [QplusP]
    rw [if_pos ⟨hi0, hiM, hj0, hjM⟩, hQ.2 i j hband, hP.2 i j hband, add_zero]

/-- Witness for C2 on the concrete domain xmin = 0, xmax = 5, M = 5, DX = 1
with samples [1/2, 3], alpha = 1, at entries (0,4) and (4,0). -/
theorem Q_symmetric_banded_witness :
    QplusP ⟨0, 5, 5, 1⟩ [1/2, 3] 1 0 4 = QplusP ⟨0, 5, 5, 1⟩ [1/2, 3] 1 4 0 ∧
      QplusP ⟨0, 5, 5, 1⟩ [1/2, 3] 1 0 4 = 0 := by
  have h := Q_symmetric_banded ⟨0, 5, 5, 1⟩ [1/2, 3] 1 0 4
    (by norm_num) (by norm_num) (by norm_num) (by norm_num)
  exact ⟨h.1, h.2 (by norm_num)⟩

/-! ### The windowed accumulation equals the dense data-fit matrix (claim C7)

The key geometric fact: a sample `x` lying in node interval
`m0 = ⌊(x - xmin)/DX⌋` can only be seen by the basis functions of nodes
`m0 - 1 .. m0 + 2` — every other `Basis(a, x)` (boundary reflections
included) is zero.  The accounting lemmas then track which window cells each
fold touches. -/

theorem symAdd_apply (P : Mat) (i j : ℤ) (v : ℚ) (a b : ℤ) :
    symAdd P i j v a b =
      P a b + (if (a = i ∧ b = j) ∨ (a = j ∧ b = i) then v else 0) := by
  simp only [symAdd]
  split_ifs with h
  · rfl
  · rw [add_zero]

theorem Basis_outside_window (d : SplineDom) (hDX : 0 < d.DX) (hM : 1 ≤ d.M)
    (hpart : d.xmax = d.xmin + (d.M : ℚ) * d.DX)
    (x : ℚ) (hx0 : d.xmin ≤ x) (hx1 : x ≤ d.xmax)
    (a : ℤ) (ha0 : 0 ≤ a) (haM : a ≤ (d.M : ℤ))
    (hout : a < ⌊(x - d.xmin) / d.DX⌋ - 1 ∨ ⌊(x - d.xmin) / d.DX⌋ + 2 < a) :
    Basis d a x = 0 := by
  set m0 := ⌊(x - d.xmin) / d.DX⌋ with hm0def
  have hfl1 : ((m0 : ℚ)) * d.DX ≤ x - d.xmin :=
    (le_div_iff₀ hDX).1 (Int.floor_le _)
  have hfl2 : x - d.xmin < ((m0 : ℚ) + 1) * d.DX := by
    have h := Int.lt_floor_add_one ((x - d.xmin) / d.DX)
    rw [div_lt_iff₀ hDX] at h
    exact_mod_cast h
  have hm00 : 0 ≤ m0 := by
    apply Int.le_floor.2
    push_cast
    exact div_nonneg (by linarith) hDX.le
  have hm0M : m0 ≤ (d.M : ℤ) := by
    have hle : (x - d.xmin) / d.DX ≤ ((d.M : ℤ) : ℚ) := by
      rw [div_le_iff₀ hDX]
      push_cast
      linarith [hpart ▸ hx1]
    calc m0 ≤ ⌊((d.M : ℤ) : ℚ)⌋ := Int.floor_le_floor hle
    _ = (d.M : ℤ) := Int.floor_intCast _
  -- the raw kernel at a vanishes
  have hraw : rawBasis d a x = 0 := by
    apply rawBasis_support d hDX
    rcases hout with hlt | hgt
    · have hc : (a : ℚ) + 2 ≤ (m0 : ℚ) := by exact_mod_cast (by omega : a + 2 ≤ m0)
      have hmul : ((a : ℚ) + 2) * d.DX ≤ (m0 : ℚ) * d.DX :=
        mul_le_mul_of_nonneg_right hc hDX.le
      have : 2 * d.DX ≤ x - (d.xmin + (a : ℚ) * d.DX) := by nlinarith
      exact le_trans this (le_abs_self _)
    · have hc : (m0 : ℚ) + 1 ≤ (a : ℚ) - 2 := by
        exact_mod_cast (by omega : m0 + 1 ≤ a - 2)
      have hmul : ((m0 : ℚ) + 1) * d.DX ≤ ((a : ℚ) - 2) * d.DX :=
        mul_le_mul_of_nonneg_right hc hDX.le
      have : 2 * d.DX ≤ (d.xmin + (a : ℚ) * d.DX) - x := by nlinarith
      exact le_trans this (by rw [abs_sub_comm]; exact le_abs_self _)
  -- the boundary addend vanishes
  rw [Basis, basisAux_succ, hraw, zero_add]
  by_cases hb1 : a = 0 ∨ a = 1
  · rw [if_pos hb1, basisAux_low d hM 0 x]
    have hm02 : 2 ≤ m0 := by omega
    have hc : (2 : ℚ) ≤ (m0 : ℚ) := by exact_mod_cast hm02
    have hraw1 : rawBasis d (-1) x = 0 := by
      apply rawBasis_support d hDX
      have : 2 * d.DX ≤ x - (d.xmin + ((-1 : ℤ) : ℚ) * d.DX) := by
        push_cast
        nlinarith
      exact le_trans this (le_abs_self _)
    rw [hraw1, mul_zero]
  · rw [if_neg hb1]
    by_cases hb2 : a = (d.M : ℤ) - 1 ∨ a = (d.M : ℤ)
    · rw [if_pos hb2, basisAux_high d hM 0 x]
      have hgt : m0 + 2 < a := by omega
      have hc : (m0 : ℚ) + 1 ≤ ((d.M : ℤ) : ℚ) - 2 := by
        exact_mod_cast (by omega : m0 + 1 ≤ (d.M : ℤ) - 2)
      have hraw1 : rawBasis d ((d.M : ℤ) + 1) x = 0 := by
        apply rawBasis_support d hDX
        have : 2 * d.DX ≤ (d.xmin + (((d.M : ℤ) + 1 : ℤ) : ℚ) * d.DX) - x := by
          push_cast
          push_cast at hc
          nlinarith
        exact le_trans this (by rw [abs_sub_comm]; exact le_abs_self _)
      rw [hraw1, mul_zero]
    · rw [if_neg hb2]

/-- If `Basis(a, x)` is nonzero then node `a` lies in the window
`m0 - 1 .. m0 + 2` around the sample's containing interval. -/
theorem Basis_nonzero_in_window (d : SplineDom) (hDX : 0 < d.DX) (hM : 1 ≤ d.M)
    (hpart : d.xmax = d.xmin + (d.M : ℚ) * d.DX)
    (x : ℚ) (hx0 : d.xmin ≤ x) (hx1 : x ≤ d.xmax)
    (a : ℤ) (ha0 : 0 ≤ a) (haM : a ≤ (d.M : ℤ))
    (hne : Basis d a x ≠ 0) :
    ⌊(x - d.xmin) / d.DX⌋ - 1 ≤ a ∧ a ≤ ⌊(x - d.xmin) / d.DX⌋ + 2 := by
  by_contra hcon
  exact hne (Basis_outside_window d hDX hM hpart x hx0 hx1 a ha0 haM (by omega))

theorem symAdd_fold_apply (m : ℤ) (f : ℤ → ℚ) :
    ∀ (l : List ℤ), l.Nodup → m ∉ l → ∀ (P : Mat) (a b : ℤ),
      (l.foldl (fun P n => symAdd P m n (f n)) P) a b =
        P a b + ((if a = m ∧ b ∈ l then f b else 0) +
          (if b = m ∧ a ∈ l then f a else 0)) := by
  intro l
  induction l with
  | nil =>
      intro _ _ P a b
      simp
  | cons n rest ih =>
      intro hnd hm P a b
      have hnr : n ∉ rest := (List.nodup_cons.1 hnd).1
      have hndr : rest.Nodup := (List.nodup_cons.1 hnd).2
      have hmn : m ≠ n := fun h => hm (h ▸ List.mem_cons_self n rest)
      have hmr : m ∉ rest := fun h => hm (List.mem_cons_of_mem n h)
      simp only [List.foldl_cons]
      rw [ih hndr hmr, symAdd_apply]
      simp only [List.mem_cons]
      by_cases h1 : a = m <;> by_cases h2 : b = m <;>
        by_cases h3 : a = n <;> by_cases h4 : b = n <;>
        simp_all <;> ring

theorem addPinner_apply (d : SplineDom) (x : ℚ) (m : ℤ) (P : Mat) (a b : ℤ) :
    addPinner d x m P a b =
      P a b +
        ((if a = m ∧ m + 1 ≤ b ∧ b ≤ min (d.M : ℤ) (m + 3) then
            Basis d a x * Basis d b x * d.DX else 0) +
         (if b = m ∧ m + 1 ≤ a ∧ a ≤ min (d.M : ℤ) (m + 3) then
            Basis d a x * Basis d b x * d.DX else 0)) := by
  rw [addPinner, symAdd_fold_apply m _ _ (nodup_rangeIccZ _ _)
    (by rw [mem_rangeIccZ]; omega)]
  simp only [mem_rangeIccZ]
  have e1 : (if a = m ∧ m + 1 ≤ b ∧ b ≤ min (d.M : ℤ) (m + 3) then
        Basis d m x * Basis d b x * d.DX else 0) =
      (if a = m ∧ m + 1 ≤ b ∧ b ≤ min (d.M : ℤ) (m + 3) then
        Basis d a x * Basis d b x * d.DX else 0) := by
    split_ifs with h
    · rw [h.1]
    · rfl
  have e2 : (if b = m ∧ m + 1 ≤ a ∧ a ≤ min (d.M : ℤ) (m + 3) then
        Basis d m x * Basis d a x * d.DX else 0) =
      (if b = m ∧ m + 1 ≤ a ∧ a ≤ min (d.M : ℤ) (m + 3) then
        Basis d a x * Basis d b x * d.DX else 0) := by
    split_ifs with h
    · rw [h.1]
      ring
    · rfl
  rw [e1, e2]

theorem window_fold_apply (d : SplineDom) (x : ℚ) :
    ∀ (l : List ℤ), l.Nodup → ∀ (P : Mat) (a b : ℤ),
      (l.foldl
          (fun P m =>
            addPinner d x m (symAdd P m m (Basis d m x * Basis d m x * d.DX)))
          P) a b
        = P a b +
            ((if a = b ∧ a ∈ l then Basis d a x * Basis d b x * d.DX else 0) +
             (if a ∈ l ∧ a + 1 ≤ b ∧ b ≤ min (d.M : ℤ) (a + 3) then
                Basis d a x * Basis d b x * d.DX else 0) +
             (if b ∈ l ∧ b + 1 ≤ a ∧ a ≤ min (d.M : ℤ) (b + 3) then
                Basis d a x * Basis d b x * d.DX else 0)) := by
  intro l
  induction l with
  | nil =>
      intro _ P a b
      simp
  | cons m rest ih =>
      intro hnd P a b
      have hmr : m ∉ rest := (List.nodup_cons.1 hnd).1
      have hndr : rest.Nodup := (List.nodup_cons.1 hnd).2
      simp only [List.foldl_cons]
      rw [ih hndr, addPinner_apply, symAdd_apply]
      simp only [List.mem_cons]
      have hh : ¬(m + 1 ≤ m) := by omega
      by_cases h1 : a = m <;> by_cases h2 : b = m
      · subst h1
        subst h2
        simp [hmr, hh]
      · subst h1
        have h2s : ¬(a = b) := fun he => h2 he.symm
        simp [hmr, hh, h2, h2s]
        ring
      · subst h2
        have h1s : ¬(b = a) := fun he => h1 he.symm
        simp [hmr, hh, h1, h1s]
        ring
      · simp [hmr, hh, h1, h2]

theorem addPouter_apply (d : SplineDom) (hDX : 0 < d.DX) (hM : 1 ≤ d.M)
    (hpart : d.xmax = d.xmin + (d.M : ℚ) * d.DX)
    (x : ℚ) (hx0 : d.xmin ≤ x) (hx1 : x ≤ d.xmax)
    (P : Mat) (a b : ℤ) (ha0 : 0 ≤ a) (haM : a ≤ (d.M : ℤ))
    (hb0 : 0 ≤ b) (hbM : b ≤ (d.M : ℤ)) :
    addPouter d P x a b = P a b + Basis d a x * Basis d b x * d.DX := by
  have hwin := fun (c : ℤ) (hc0 : 0 ≤ c) (hcM : c ≤ (d.M : ℤ)) =>
    Basis_nonzero_in_window d hDX hM hpart x hx0 hx1 c hc0 hcM
  rw [addPouter, window_fold_apply d x _ (nodup_rangeIccZ _ _)]
  set m0 := ⌊(x - d.xmin) / d.DX⌋ with hm0def
  simp only [mem_rangeIccZ]
  rcases lt_trichotomy a b with hab | hab | hab
  · -- a < b: only the middle indicator can fire
    have hdiag : ¬(a = b ∧ max 0 (m0 - 2) ≤ a ∧ a ≤ min (d.M : ℤ) (m0 + 2)) :=
      fun hc => absurd hc.1 (by omega)
    have hlast : ¬((max 0 (m0 - 2) ≤ b ∧ b ≤ min (d.M : ℤ) (m0 + 2)) ∧
        b + 1 ≤ a ∧ a ≤ min (d.M : ℤ) (b + 3)) :=
      fun hc => absurd hc.2.1 (by omega)
    rw [if_neg hdiag, if_neg hlast]
    by_cases hc : (max 0 (m0 - 2) ≤ a ∧ a ≤ min (d.M : ℤ) (m0 + 2)) ∧
        a + 1 ≤ b ∧ b ≤ min (d.M : ℤ) (a + 3)
    · rw [if_pos hc]
      ring
    · rw [if_neg hc]
      rcases not_and_or.1 hc with hna | hnc
      · have hBa : Basis d a x = 0 :=
          Basis_outside_window d hDX hM hpart x hx0 hx1 a ha0 haM (by omega)
        rw [hBa]
        ring
      · by_cases hBa : Basis d a x = 0
        · rw [hBa]
          ring
        · by_cases hBb : Basis d b x = 0
          · rw [hBb]
            ring
          · exfalso
            have hwa := hwin a ha0 haM hBa
            have hwb := hwin b hb0 hbM hBb
            omega
  · -- a = b: only the diagonal indicator can fire
    subst hab
    have hmid : ¬((max 0 (m0 - 2) ≤ a ∧ a ≤ min (d.M : ℤ) (m0 + 2)) ∧
        a + 1 ≤ a ∧ a ≤ min (d.M : ℤ) (a + 3)) :=
      fun hc => absurd hc.2.1 (by omega)
    rw [if_neg hmid]
    by_cases hw : max 0 (m0 - 2) ≤ a ∧ a ≤ min (d.M : ℤ) (m0 + 2)
    · have hcc : a = a ∧ max 0 (m0 - 2) ≤ a ∧ a ≤ min (d.M : ℤ) (m0 + 2) :=
        ⟨rfl, hw⟩
      rw [if_pos hcc]
      ring
    · have hcc : ¬(a = a ∧ max 0 (m0 - 2) ≤ a ∧ a ≤ min (d.M : ℤ) (m0 + 2)) :=
        fun hc => hw hc.2
      rw [if_neg hcc]
      have hBa : Basis d a x = 0 :=
        Basis_outside_window d hDX hM hpart x hx0 hx1 a ha0 haM (by omega)
      rw [hBa]
      ring
  · -- b < a: only the last indicator can fire
    have hdiag : ¬(a = b ∧ max 0 (m0 - 2) ≤ a ∧ a ≤ min (d.M : ℤ) (m0 + 2)) :=
      fun hc => absurd hc.1 (by omega)
    have hmid : ¬((max 0 (m0 - 2) ≤ a ∧ a ≤ min (d.M : ℤ) (m0 + 2)) ∧
        a + 1 ≤ b ∧ b ≤ min (d.M : ℤ) (a + 3)) :=
      fun hc => absurd hc.2.1 (by omega)
    rw [if_neg hdiag, if_neg hmid]
    by_cases hc : (max 0 (m0 - 2) ≤ b ∧ b ≤ min (d.M : ℤ) (m0 + 2)) ∧
        b + 1 ≤ a ∧ a ≤ min (d.M : ℤ) (b + 3)
    · rw [if_pos hc]
      ring
    · rw [if_neg hc]
      rcases not_and_or.1 hc with hna | hnc
      · have hBb : Basis d b x = 0 :=
          Basis_outside_window d hDX hM hpart x hx0 hx1 b hb0 hbM (by omega)
        rw [hBb]
        ring
      · by_cases hBa : Basis d a x = 0
        · rw [hBa]
          ring
        · by_cases hBb : Basis d b x = 0
          · rw [hBb]
            ring
          · exfalso
            have hwa := hwin a ha0 haM hBa
            have hwb := hwin b hb0 hbM hBb
            omega

theorem addP_fold_apply (d : SplineDom) (hDX : 0 < d.DX) (hM : 1 ≤ d.M)
    (hpart : d.xmax = d.xmin + (d.M : ℚ) * d.DX) :
    ∀ (X : List ℚ), (∀ xj ∈ X, d.xmin ≤ xj ∧ xj ≤ d.xmax) →
      ∀ (P : Mat) (a b : ℤ), 0 ≤ a → a ≤ (d.M : ℤ) → 0 ≤ b → b ≤ (d.M : ℤ) →
      (X.foldl (addPouter d) P) a b = P a b + Pdense d X a b := by
  intro X
  induction X with
  | nil =>
      intro _ P a b _ _ _ _
      simp [Pdense]
  | cons x rest ih =>
      intro hX P a b ha0 haM hb0 hbM
      have hx := hX x (List.mem_cons_self x rest)
      simp only [List.foldl_cons]
      rw [ih (fun xj hj => hX xj (List.mem_cons_of_mem x hj)) _ a b ha0 haM hb0 hbM]
      rw [addPouter_apply d hDX hM hpart x hx.1 hx.2 P a b ha0 haM hb0 hbM]
      simp only [Pdense, List.map_cons, List.sum_cons]
      ring

/-- Claim C7: for every valid domain, `addP`'s per-sample windowed
accumulation (at most a 5-node neighborhood around each sample's containing
interval) produces exactly the dense reference matrix
`P[m][n] = Σ_j basis(m, x_j)·basis(n, x_j)·DX`, because every basis pair
outside the window vanishes at the sample. -/
theorem addP_matches_dense :
    ∀ (d : SplineDom) (X : List ℚ), 0 < d.DX → 1 ≤ d.M →
      d.xmax = d.xmin + (d.M : ℚ) * d.DX →
      (∀ xj ∈ X, d.xmin ≤ xj ∧ xj ≤ d.xmax) →
      ∀ (a b : ℤ), 0 ≤ a → a ≤ (d.M : ℤ) → 0 ≤ b → b ≤ (d.M : ℤ) →
      addPmat d X a b = Pdense d X a b := by
  intro d X hDX hM hpart hX a b ha0 haM hb0 hbM
  rw [addPmat, addP_fold_apply d hDX hM hpart X hX _ a b ha0 haM hb0 hbM]
  simp

/-- Witness for C7 on the domain xmin = 0, xmax = 5, M = 5, DX = 1 with
samples [1/2, 3], at entry (1, 2). -/
theorem addP_matches_dense_witness :
    addPmat ⟨0, 5, 5, 1⟩ [1/2, 3] 1 2 = Pdense ⟨0, 5, 5, 1⟩ [1/2, 3] 1 2 :=
  addP_matches_dense ⟨0, 5, 5, 1⟩ [1/2, 3] (by norm_num) (by norm_num)
    (by norm_num) (by norm_num) 1 2 (by norm_num) (by norm_num) (by norm_num)
    (by norm_num)

/-! ## The banded LU factorization (`LU_factor_banded`)

The template routine works on 1-based matrices; it is embedded over total
functions `ℕ → ℕ → ℚ` with explicit dimensions.  `luGo` is the column loop
`for (j = 1; j <= minMN; j++)`, carrying the number of remaining columns as
the recursion measure; `stepCol` is one loop body after the zero-pivot test
(row swap, column normalization, rank-one update). -/

/-- 1-based matrices for the LU routine. -/
abbrev MatN := ℕ → ℕ → ℚ

/-- A single element assignment `A(i,j) = v`. -/
def updM (A : MatN) (i j : ℕ) (v : ℚ) : MatN := fun a b =>
  if a = i ∧ b = j then v else A a b

/-- The pivot search fold: starting from `(j, |A(j,j)|)`, scan
`i = j+1 .. min(j+bands, M)` and keep the first index of strictly larger
magnitude. -/
def pivotFold (A : MatN) (bands M j : ℕ) : ℕ × ℚ :=
  (rangeIccN (j + 1) (min (j + bands) M)).foldl
    (fun p i => if p.2 < |A i j| then (i, |A i j|) else p)
    (j, |A j j|)

/-- The pivot row `jp` chosen for column `j`. -/
def pivotOf (A : MatN) (bands M j : ℕ) : ℕ := (pivotFold A bands M j).1

/-- The three-assignment element swap `t = A(j,k); A(j,k) = A(jp,k);
A(jp,k) = t`. -/
def swapStep (j jp : ℕ) (A : MatN) (k : ℕ) : MatN :=
  let t := A j k
  let A1 := updM A j k (A jp k)
  updM A1 jp k t

/-- The full-width row swap `for (k = 1; k <= N; k++)`. -/
def swapRows (A : MatN) (j jp N : ℕ) : MatN :=
  (rangeIccN 1 N).foldl (swapStep j jp) A

/-- `recp = 1/A(j,j); for (k = j+1; k <= M; k++) A(k,j) *= recp`. -/
def normalizeCol (A : MatN) (j M : ℕ) : MatN :=
  let recp := 1 / A j j
  (rangeIccN (j + 1) M).foldl (fun B k => updM B k j (B k j * recp)) A

/-- The rank-one update of the trailing submatrix
`A(ii,jj) -= A(ii,j) * A(j,jj)` for `ii, jj > j` (the updated cells never
feed later reads: column `j` and row `j` are untouched). -/
def rankUpdate (A : MatN) (j M N : ℕ) : MatN :=
  (rangeIccN (j + 1) M).foldl
    (fun B ii =>
      (rangeIccN (j + 1) N).foldl
        (fun C jj => updM C ii jj (C ii jj - C ii j * C j jj)) B)
    A

/-- One column step after the zero-pivot test: conditional row swap,
normalization of the sub-diagonal column, rank-one update. -/
def stepCol (bands M N minMN : ℕ) (A : MatN) (j : ℕ) : MatN :=
  let jp := pivotOf A bands M j
  let A1 := if jp ≠ j then swapRows A j jp N else A
  let A2 := if j < M then normalizeCol A1 j M else A1
  if j < minMN then rankUpdate A2 j M N else A2

/-- The column loop of `LU_factor_banded`: `rem` columns remain, the current
column is `j`; a zero pivot aborts with failure (return value 1 in the
source). -/
def luGo (bands M N minMN : ℕ) : ℕ → ℕ → MatN → (ℕ → ℕ) → Option (MatN × (ℕ → ℕ))
  | 0, _, A, ix => some (A, ix)
  | rem + 1, j, A, ix =>
      let jp := pivotOf A bands M j
      let ix1 := fun k => if k = j then jp else ix k
      if A jp j = 0 then none
      else luGo bands M N minMN rem (j + 1) (stepCol bands M N minMN A j) ix1

/-- `LU_factor_banded` (returns `none` for the failure return 1; `M = 0` or
`N = 0` succeeds immediately, as in the source). -/
def LU_factor_banded (A : MatN) (ix : ℕ → ℕ) (bands M N : ℕ) :
    Option (MatN × (ℕ → ℕ)) :=
  if M = 0 ∨ N = 0 then some (A, ix)
  else luGo bands M N (min M N) (min M N) 1 A ix

/-- The matrix after `k` further column steps starting at column `j`. -/
def stageFrom (bands M N minMN : ℕ) (A : MatN) (j : ℕ) : ℕ → MatN
  | 0 => A
  | k + 1 => stageFrom bands M N minMN (stepCol bands M N minMN A j) (j + 1) k

/-- The chosen pivot value at the `k`-th column step after `j`. -/
def pivotValFrom (bands M N minMN : ℕ) (A : MatN) (j k : ℕ) : ℚ :=
  let Ak := stageFrom bands M N minMN A j k
  Ak (pivotOf Ak bands M (j + k)) (j + k)

theorem pivotFold_spec (A : MatN) (j : ℕ) :
    ∀ (l : List ℕ) (p : ℕ × ℚ), p.2 = |A p.1 j| →
      (l.foldl (fun p i => if p.2 < |A i j| then (i, |A i j|) else p) p).2 =
          |A (l.foldl (fun p i => if p.2 < |A i j| then (i, |A i j|) else p) p).1 j| ∧
        p.2 ≤ (l.foldl (fun p i => if p.2 < |A i j| then (i, |A i j|) else p) p).2 ∧
        ((l.foldl (fun p i => if p.2 < |A i j| then (i, |A i j|) else p) p).1 = p.1 ∨
          (l.foldl (fun p i => if p.2 < |A i j| then (i, |A i j|) else p) p).1 ∈ l) ∧
        ∀ i ∈ l, |A i j| ≤
          (l.foldl (fun p i => if p.2 < |A i j| then (i, |A i j|) else p) p).2 := by
  intro l
  induction l with
  | nil =>
      intro p hp
      exact ⟨hp, le_rfl, Or.inl rfl, by simp⟩
  | cons i rest ih =>
      intro p hp
      simp only [List.foldl_cons]
      by_cases hlt : p.2 < |A i j|
      · rw [if_pos hlt]
        obtain ⟨h1, h2, h3, h4⟩ := ih (i, |A i j|) rfl
        refine ⟨h1, le_trans hlt.le h2, ?_, ?_⟩
        · rcases h3 with h3 | h3
          · exact Or.inr (h3 ▸ List.mem_cons_self i rest)
          · exact Or.inr (List.mem_cons_of_mem i h3)
        · intro i2 hi2
          rcases List.mem_cons.1 hi2 with rfl | hi2
          · exact h2
          · exact h4 i2 hi2
      · rw [if_neg hlt]
        obtain ⟨h1, h2, h3, h4⟩ := ih p hp
        refine ⟨h1, h2, ?_, ?_⟩
        · rcases h3 with h3 | h3
          · exact Or.inl h3
          · exact Or.inr (List.mem_cons_of_mem i h3)
        · intro i2 hi2
          rcases List.mem_cons.1 hi2 with rfl | hi2
          · exact le_trans (not_lt.1 hlt) h2
          · exact h4 i2 hi2

theorem pivotOf_spec (A : MatN) (bands M j : ℕ) (hjM : j ≤ M) :
    j ≤ pivotOf A bands M j ∧ pivotOf A bands M j ≤ min (j + bands) M ∧
      ∀ i, j ≤ i → i ≤ min (j + bands) M →
        |A i j| ≤ |A (pivotOf A bands M j) j| := by
  obtain ⟨h1, h2, h3, h4⟩ := pivotFold_spec A j
    (rangeIccN (j + 1) (min (j + bands) M)) (j, |A j j|) rfl
  have hb : j ≤ pivotOf A bands M j ∧ pivotOf A bands M j ≤ min (j + bands) M := by
    rcases h3 with h3 | h3
    · have he : pivotOf A bands M j = j := by rw [pivotOf, pivotFold, h3]
      rw [he]
      exact ⟨le_rfl, by omega⟩
    · rw [mem_rangeIccN] at h3
      have he : j + 1 ≤ pivotOf A bands M j ∧
          pivotOf A bands M j ≤ min (j + bands) M := h3
      exact ⟨by omega, by omega⟩
  refine ⟨hb.1, hb.2, ?_⟩
  intro i hi1 hi2
  rw [pivotOf, pivotFold, ← h1]
  rcases eq_or_lt_of_le hi1 with rfl | hgt
  · exact h2
  · exact h4 i (by rw [mem_rangeIccN]; omega)

theorem swapStep_apply (A : MatN) (j jp k a b : ℕ) :
    swapStep j jp A k a b =
      if a = jp ∧ b = k then A j k
      else if a = j ∧ b = k then A jp k
      else A a b := by
  simp only [swapStep, updM]

theorem swapFold_apply (j jp : ℕ) (hjp : jp ≠ j) :
    ∀ (l : List ℕ), l.Nodup → ∀ (A : MatN) (a b : ℕ),
      (l.foldl (swapStep j jp) A) a b =
        if a = j ∧ b ∈ l then A jp b
        else if a = jp ∧ b ∈ l then A j b
        else A a b := by
  intro l
  induction l with
  | nil =>
      intro _ A a b
      simp
  | cons k rest ih =>
      intro hnd A a b
      have hkr : k ∉ rest := (List.nodup_cons.1 hnd).1
      have hndr : rest.Nodup := (List.nodup_cons.1 hnd).2
      simp only [List.foldl_cons]
      rw [ih hndr]
      simp only [List.mem_cons, swapStep_apply]
      by_cases h1 : a = j <;> by_cases h2 : a = jp <;>
        by_cases h3 : b = k <;> simp_all

/-- Rows `j` and `jp` are exchanged across every column `1..N`. -/
theorem swapRows_apply (A : MatN) (j jp N : ℕ) (hjp : jp ≠ j) (k : ℕ)
    (hk1 : 1 ≤ k) (hkN : k ≤ N) :
    swapRows A j jp N j k = A jp k ∧ swapRows A j jp N jp k = A j k := by
  rw [swapRows, swapFold_apply j jp hjp _ (nodup_rangeIccN _ _),
    swapFold_apply j jp hjp _ (nodup_rangeIccN _ _)]
  constructor
  · rw [if_pos ⟨rfl, by rw [mem_rangeIccN]; omega⟩]
  · rw [if_neg (fun hc => hjp hc.1), if_pos ⟨rfl, by rw [mem_rangeIccN]; omega⟩]

theorem pivotValFrom_zero (bands M N minMN : ℕ) (A : MatN) (j : ℕ) :
    pivotValFrom bands M N minMN A j 0 = A (pivotOf A bands M j) j := rfl

theorem pivotValFrom_shift (bands M N minMN : ℕ) (A : MatN) (j k : ℕ) :
    pivotValFrom bands M N minMN (stepCol bands M N minMN A j) (j + 1) k =
      pivotValFrom bands M N minMN A j (k + 1) := by
  have hidx : j + 1 + k = j + (k + 1) := by omega
  simp only [pivotValFrom, stageFrom, hidx]

theorem luGo_isSome_iff (bands M N minMN : ℕ) :
    ∀ (rem j : ℕ) (A : MatN) (ix : ℕ → ℕ),
      ((luGo bands M N minMN rem j A ix).isSome = true ↔
        ∀ k < rem, pivotValFrom bands M N minMN A j k ≠ 0) := by
  intro rem
  induction rem with
  | zero =>
      intro j A ix
      simp [luGo]
  | succ r ih =>
      intro j A ix
      by_cases hz : A (pivotOf A bands M j) j = 0
      · simp only [luGo, if_pos hz]
        constructor
        · intro h
          exact absurd h (by simp)
        · intro hall
          exact absurd (by rw [pivotValFrom_zero]; exact hz) (hall 0 (by omega))
      · simp only [luGo, if_neg hz]
        rw [ih (j + 1) (stepCol bands M N minMN A j) _]
        constructor
        · intro hall k hk
          rcases k with _ | k
          · rw [pivotValFrom_zero]
            exact hz
          · rw [← pivotValFrom_shift]
            exact hall k (by omega)
        · intro hall k hk
          rw [pivotValFrom_shift]
          exact hall (k + 1) (by omega)

/-- Claim C3: (1) for each column j the routine selects the pivot of maximum
magnitude, searching only rows `j..min(j+bands, M)`; (2) the factorization
succeeds exactly when every chosen pivot is nonzero — a zero pivot is
reported as failure, never silently passed; (3) on a pivot-row change the
full rows j and jp are swapped across all columns `1..N`. -/
theorem LU_factor_banded_spec :
    (∀ (A : MatN) (bands M j : ℕ), j ≤ M →
        j ≤ pivotOf A bands M j ∧ pivotOf A bands M j ≤ min (j + bands) M ∧
          ∀ i, j ≤ i → i ≤ min (j + bands) M →
            |A i j| ≤ |A (pivotOf A bands M j) j|) ∧
    (∀ (A : MatN) (ix : ℕ → ℕ) (bands M N : ℕ), ¬(M = 0 ∨ N = 0) →
        ((LU_factor_banded A ix bands M N).isSome = true ↔
          ∀ k < min M N, pivotValFrom bands M N (min M N) A 1 k ≠ 0)) ∧
    (∀ (A : MatN) (j jp N : ℕ), jp ≠ j → ∀ k, 1 ≤ k → k ≤ N →
        swapRows A j jp N j k = A jp k ∧ swapRows A j jp N jp k = A j k) := by
  refine ⟨pivotOf_spec, ?_, swapRows_apply⟩
  intro A ix bands M N hMN
  rw [LU_factor_banded, if_neg hMN]
  exact luGo_isSome_iff bands M N (min M N) (min M N) 1 A ix

/-- A concrete 1-based 2×2 matrix `[[0, 1], [3, 4]]` for the C3 witness. -/
def luWitnessA : MatN := fun a b =>
  if a = 1 ∧ b = 1 then 0 else if a = 1 ∧ b = 2 then 1
  else if a = 2 ∧ b = 1 then 3 else if a = 2 ∧ b = 2 then 4 else 0

/-- Witness for C3 on the concrete 2×2 matrix `[[0, 1], [3, 4]]` (1-based)
with bands = 3: the pivot for column 1 lies in rows 1..2 and dominates
`|A(2,1)|`, and the swap exchanges the two rows. -/
theorem LU_factor_banded_spec_witness :
    1 ≤ pivotOf luWitnessA 3 2 1 ∧ pivotOf luWitnessA 3 2 1 ≤ min (1 + 3) 2 ∧
      |luWitnessA 2 1| ≤ |luWitnessA (pivotOf luWitnessA 3 2 1) 1| ∧
      swapRows luWitnessA 1 2 2 1 1 = luWitnessA 2 1 ∧
      swapRows luWitnessA 1 2 2 2 1 = luWitnessA 1 1 := by
  obtain ⟨hpiv, hsolve, hswap⟩ := LU_factor_banded_spec
  obtain ⟨h1, h2, h3⟩ := hpiv luWitnessA 3 2 1 (by norm_num)
  obtain ⟨h4, h5⟩ := hswap luWitnessA 1 2 2 (by norm_num) 1 le_rfl (by norm_num)
  exact ⟨h1, h2, h3 2 (by norm_num) (by norm_num), h4, h5⟩

/-! ## Spline fit and evaluation (`BSpline::BSpline`, `evaluate`, `curve`)

`LU_solve` comes from TNT's `lu.h`, which is not among this repository's
sources; it is modelled from the spec (§4.1): apply the factorization's row
permutation to the right-hand side, forward-substitute with the unit lower
factor, back-substitute with the upper factor. -/

/-- A single vector element assignment. -/
def updV (v : ℕ → ℚ) (i : ℕ) (x : ℚ) : ℕ → ℚ := fun a => if a = i then x else v a

/-- One permutation step: exchange entries `i` and `ix i`. -/
def permStep (ix : ℕ → ℕ) (w : ℕ → ℚ) (i : ℕ) : ℕ → ℚ :=
  let t := w i
  updV (updV w i (w (ix i))) (ix i) t

/-- Modelled from the spec: the row permutation recorded by the pivoting
factorization, applied to a right-hand-side vector. -/
def applyPerm (ix : ℕ → ℕ) (n : ℕ) (v : ℕ → ℚ) : ℕ → ℚ :=
  (rangeIccN 1 n).foldl (permStep ix) v

/-- Modelled from the spec: forward substitution with the unit lower factor;
`forwardSub LU bp i` lists the first `i` solution entries `y_1 .. y_i`. -/
def forwardSub (LUm : MatN) (bp : ℕ → ℚ) : ℕ → List ℚ
  | 0 => []
  | i + 1 =>
      let prev := forwardSub LUm bp i
      prev ++ [bp (i + 1) -
        (rangeIccN 1 i).foldl (fun s k => s + LUm (i + 1) k * prev.getD (k - 1) 0) 0]

/-- Modelled from the spec: back substitution with the upper factor;
`backSub LU n y c` lists the last `c` solution entries `x_{n-c+1} .. x_n`. -/
def backSub (LUm : MatN) (n : ℕ) (y : ℕ → ℚ) : ℕ → List ℚ
  | 0 => []
  | c + 1 =>
      let tail := backSub LUm n y c
      let i := n - c
      ((y i - (rangeIccN (i + 1) n).foldl
          (fun s k => s + LUm i k * tail.getD (k - i - 1) 0) 0) / LUm i i) :: tail

/-- Modelled from the spec: TNT's `LU_solve` (lu.h, not in this repository):
permutation, then forward substitution, then back substitution, returning
the solution vector. -/
def LU_solve (LUm : MatN) (ix : ℕ → ℕ) (b : List ℚ) : List ℚ :=
  let n := b.length
  let bp := applyPerm ix n (fun i => b.getD (i - 1) 0)
  let yl := forwardSub LUm bp n
  backSub LUm n (fun i => yl.getD (i - 1) 0) n

/-- Modelled from the spec: the solve reports failure only when the
factorization is flagged singular; a domain caches only successful
factorizations (`factor` aborts otherwise), so the checked solve on a cached
factorization succeeds. -/
def LU_solve_checked (LUm : MatN) (ix : ℕ → ℕ) (b : List ℚ) : Option (List ℚ) :=
  some (LU_solve LUm ix b)

/-- The right-hand-side vector built by the `BSpline` constructor:
`B[m] = (Σ_{j<NX} y[j] · Basis(m, X[j])) * DX` for `m = 0..M`. -/
def fitB (d : SplineDom) (X : List ℚ) (y : List ℚ) : List ℚ :=
  (List.range (d.M + 1)).map (fun (m : ℕ) =>
    ((List.range X.length).foldl
        (fun s j => s + y.getD j 0 * Basis d ((m : ℤ)) (X.getD j 0)) 0) * d.DX)

/-- The `BSpline` constructor: build B, solve `(P+Q)·A = B` through the
cached factorization, fail if the solve reports singularity (the source
calls `exit(1)`). -/
def fit (d : SplineDom) (X : List ℚ) (LUm : MatN) (ix : ℕ → ℕ) (y : List ℚ) :
    Option (List ℚ) :=
  match LU_solve_checked LUm ix (fitB d X y) with
  | none => none
  | some A => some A

/-- `BSpline::evaluate`: `Σ_{i=0}^{M} A[i] · Basis(i, x)`. -/
def evaluate (d : SplineDom) (A : List ℚ) (x : ℚ) : ℚ :=
  (List.range (d.M + 1)).foldl (fun y i => y + A.getD i 0 * Basis d (i : ℤ) x) 0

/-- The dense curve sample `BSpline::curve` computes on first call:
`evaluate(xmin + n·DX)` for `n = 0..M`. -/
def curveCompute (d : SplineDom) (A : List ℚ) : List ℚ :=
  (List.range (d.M + 1)).map (fun (n : ℕ) =>
    evaluate d A (d.xmin + (n : ℚ) * d.DX))

/-- `BSpline::curve` as a state transformer on the `spline` cache: an empty
cache is filled by `curveCompute`; a nonempty cache is returned unchanged.
The result pairs the returned array with the new cache state. -/
def curveCall (d : SplineDom) (A : List ℚ) (spline : List ℚ) :
    List ℚ × List ℚ :=
  if spline.length = 0 then
    let c := curveCompute d A
    (c, c)
  else (spline, spline)

theorem backSub_length (LUm : MatN) (n : ℕ) (y : ℕ → ℚ) :
    ∀ c, (backSub LUm n y c).length = c := by
  intro c
  induction c with
  | zero => rfl
  | succ k ih => simp [backSub, ih]

theorem LU_solve_length (LUm : MatN) (ix : ℕ → ℕ) (b : List ℚ) :
    (LU_solve LUm ix b).length = b.length := backSub_length _ _ _ _

/-- Claim C5: for every domain and y-vector, the fit builds
`B[m] = DX · Σ_j y[j]·Basis(m, x[j])`, obtains the coefficients by solving
through the cached LU factorization (coefficient vector of length M+1), and
fails exactly when the solve reports singularity. -/
theorem fit_spec :
    ∀ (d : SplineDom) (X : List ℚ) (LUm : MatN) (ix : ℕ → ℕ) (y : List ℚ),
      (∀ A, fit d X LUm ix y = some A →
        A = LU_solve LUm ix (fitB d X y) ∧ A.length = d.M + 1) ∧
      (fit d X LUm ix y = none ↔ LU_solve_checked LUm ix (fitB d X y) = none) ∧
      (∀ m : ℕ, m ≤ d.M →
        (fitB d X y).getD m 0 =
          d.DX * ((List.range X.length).foldl
            (fun s j => s + y.getD j 0 * Basis d (m : ℤ) (X.getD j 0)) 0)) := by
  intro d X LUm ix y
  refine ⟨?_, ?_, ?_⟩
  · intro A hA
    have hA2 : A = LU_solve LUm ix (fitB d X y) := by
      simp only [fit, LU_solve_checked] at hA
      exact (Option.some.inj hA).symm
    refine ⟨hA2, ?_⟩
    rw [hA2, LU_solve_length]
    simp [fitB]
  · simp [fit, LU_solve_checked]
  · intro m hm
    have hlt : m < d.M + 1 := by omega
    simp only [fitB]
    rw [List.getD_eq_getElem?_getD, List.getElem?_map, List.getElem?_range hlt]
    simp [mul_comm]

/-- Witness for C5 on the domain xmin = 0, xmax = 5, M = 5, DX = 1, samples
[0, 3], data [2, 5], all-ones factor. -/
theorem fit_spec_witness :
    (fit ⟨0, 5, 5, 1⟩ [0, 3] (fun _ _ => 1) (fun k => k) [2, 5] = none ↔
      LU_solve_checked (fun _ _ => 1) (fun k => k)
        (fitB ⟨0, 5, 5, 1⟩ [0, 3] [2, 5]) = none) ∧
    (fitB ⟨0, 5, 5, 1⟩ [0, 3] [2, 5]).getD 1 0 =
      (1 : ℚ) * ((List.range 2).foldl
        (fun s j => s + ([2, 5] : List ℚ).getD j 0 *
          Basis ⟨0, 5, 5, 1⟩ (1 : ℤ) (([0, 3] : List ℚ).getD j 0)) 0) := by
  obtain ⟨h1, h2, h3⟩ := fit_spec ⟨0, 5, 5, 1⟩ [0, 3] (fun _ _ => 1)
    (fun k => k) [2, 5]
  exact ⟨h2, h3 1 (by norm_num)⟩

/-- Claim C8: the curve array has length M+1, its entry at position n is
`evaluate(xmin + n·DX)`, the first call fills the empty cache, and a repeated
call returns the cached array unchanged without recomputation. -/
theorem curve_spec :
    ∀ (d : SplineDom) (A : List ℚ),
      (curveCall d A []).1.length = d.M + 1 ∧
      (∀ n : ℕ, n ≤ d.M →
        (curveCall d A []).1.getD n 0 =
          evaluate d A (d.xmin + (n : ℚ) * d.DX)) ∧
      curveCall d A ((curveCall d A []).2) =
        ((curveCall d A []).1, (curveCall d A []).1) := by
  intro d A
  have hfirst : curveCall d A [] = (curveCompute d A, curveCompute d A) := by
    simp [curveCall]
  have hlen : (curveCompute d A).length = d.M + 1 := by
    simp [curveCompute]
  refine ⟨by rw [hfirst]; exact hlen, ?_, ?_⟩
  · intro n hn
    have hlt : n < d.M + 1 := by omega
    rw [hfirst]
    simp only [curveCompute]
    rw [List.getD_eq_getElem?_getD, List.getElem?_map, List.getElem?_range hlt]
    rfl
  · rw [hfirst]
    simp only [curveCall, hlen]
    norm_num

/-- Witness for C8 on the domain xmin = 0, xmax = 5, M = 5, DX = 1 with
coefficients [1, 0, 0, 0, 0, 0], checking position 2 and the cached call. -/
theorem curve_spec_witness :
    (curveCall ⟨0, 5, 5, 1⟩ [1, 0, 0, 0, 0, 0] []).1.length = 5 + 1 ∧
      (curveCall ⟨0, 5, 5, 1⟩ [1, 0, 0, 0, 0, 0] []).1.getD 2 0 =
        evaluate ⟨0, 5, 5, 1⟩ [1, 0, 0, 0, 0, 0] (0 + (2 : ℚ) * 1) ∧
      curveCall ⟨0, 5, 5, 1⟩ [1, 0, 0, 0, 0, 0]
          ((curveCall ⟨0, 5, 5, 1⟩ [1, 0, 0, 0, 0, 0] []).2) =
        ((curveCall ⟨0, 5, 5, 1⟩ [1, 0, 0, 0, 0, 0] []).1,
          (curveCall ⟨0, 5, 5, 1⟩ [1, 0, 0, 0, 0, 0] []).1) := by
  obtain ⟨h1, h2, h3⟩ := curve_spec ⟨0, 5, 5, 1⟩ [1, 0, 0, 0, 0, 0]
  exact ⟨h1, h2 2 (by norm_num), h3⟩

/-! ### Zero data fits to the zero spline, and the ten-sample scenario (C9) -/

theorem getD_zero_of_all_zero (A : List ℚ) (h : ∀ v ∈ A, v = 0) (i : ℕ) :
    A.getD i 0 = 0 := by
  rw [List.getD_eq_getElem?_getD]
  rcases he : A[i]? with _ | v
  · rfl
  · have hv := h v (List.getElem?_mem he)
    simp [hv]

/-- A fold whose step fixes the accumulator on every list element is the
identity. -/
theorem foldl_fix {α : Type} :
    ∀ (l : List α) (f : ℚ → α → ℚ) (s : ℚ),
      (∀ (t : ℚ) (a : α), a ∈ l → f t a = t) → l.foldl f s = s := by
  intro l
  induction l with
  | nil => intros; rfl
  | cons x xs ih =>
      intro f s h
      simp only [List.foldl_cons]
      rw [h s x (by simp)]
      exact ih f s (fun t a ha => h t a (by simp [ha]))

theorem fitB_zero (d : SplineDom) (X : List ℚ) (y : List ℚ)
    (hy : ∀ v ∈ y, v = 0) : ∀ v ∈ fitB d X y, v = 0 := by
  intro v hv
  simp only [fitB, List.mem_map] at hv
  obtain ⟨m, _, rfl⟩ := hv
  have h0 : (List.range X.length).foldl
      (fun s j => s + y.getD j 0 * Basis d ((m : ℤ)) (X.getD j 0)) 0 = 0 :=
    foldl_fix _ _ _ (fun t j _ => by
      rw [getD_zero_of_all_zero y hy j, zero_mul, add_zero])
  rw [h0, zero_mul]

theorem applyPerm_zero (ix : ℕ → ℕ) (n : ℕ) (v : ℕ → ℚ) (hv : ∀ i, v i = 0) :
    ∀ i, applyPerm ix n v i = 0 := by
  refine foldl_inv (fun w => ∀ i, w i = 0) (permStep ix) _ v hv ?_
  intro w k _ hw i
  simp only [permStep, updV]
  split_ifs <;> exact hw _

theorem forwardSub_zero (LUm : MatN) (bp : ℕ → ℚ) (hbp : ∀ i, bp i = 0) :
    ∀ i, ∀ v ∈ forwardSub LUm bp i, v = 0 := by
  intro i
  induction i with
  | zero =>
      intro v hv
      simp [forwardSub] at hv
  | succ k ih =>
      intro v hv
      simp only [forwardSub, List.mem_append, List.mem_singleton] at hv
      rcases hv with hv | rfl
      · exact ih v hv
      · have h0 : (rangeIccN 1 k).foldl
            (fun s a => s + LUm (k + 1) a * (forwardSub LUm bp k).getD (a - 1) 0)
            0 = 0 :=
          foldl_fix _ _ _ (fun t a _ => by
            rw [getD_zero_of_all_zero _ (ih) (a - 1), mul_zero, add_zero])
        rw [hbp, h0, sub_zero]

theorem backSub_zero (LUm : MatN) (n : ℕ) (y : ℕ → ℚ) (hy : ∀ i, y i = 0) :
    ∀ c, ∀ v ∈ backSub LUm n y c, v = 0 := by
  intro c
  induction c with
  | zero =>
      intro v hv
      simp [backSub] at hv
  | succ k ih =>
      intro v hv
      simp only [backSub, List.mem_cons] at hv
      rcases hv with rfl | hv
      · have h0 : (rangeIccN (n - k + 1) n).foldl
            (fun s a =>
              s + LUm (n - k) a * (backSub LUm n y k).getD (a - (n - k) - 1) 0)
            0 = 0 :=
          foldl_fix _ _ _ (fun t a _ => by
            rw [getD_zero_of_all_zero _ ih (a - (n - k) - 1), mul_zero, add_zero])
        rw [hy, h0, sub_zero, zero_div]
      · exact ih v hv

theorem LU_solve_zero (LUm : MatN) (ix : ℕ → ℕ) (b : List ℚ)
    (hb : ∀ v ∈ b, v = 0) : ∀ v ∈ LU_solve LUm ix b, v = 0 := by
  have hbf : ∀ i, b.getD (i - 1) 0 = 0 :=
    fun i => getD_zero_of_all_zero b hb (i - 1)
  have hbp : ∀ i, applyPerm ix b.length (fun i => b.getD (i - 1) 0) i = 0 :=
    applyPerm_zero ix b.length _ hbf
  have hyl : ∀ v ∈ forwardSub LUm
      (applyPerm ix b.length (fun i => b.getD (i - 1) 0)) b.length, v = 0 :=
    forwardSub_zero LUm _ hbp b.length
  have hyf : ∀ i, (forwardSub LUm
      (applyPerm ix b.length (fun i => b.getD (i - 1) 0)) b.length).getD
        (i - 1) 0 = 0 :=
    fun i => getD_zero_of_all_zero _ hyl (i - 1)
  exact backSub_zero LUm b.length _ hyf b.length

theorem evaluate_zero (d : SplineDom) (A : List ℚ) (x : ℚ)
    (h : ∀ v ∈ A, v = 0) : evaluate d A x = 0 :=
  foldl_fix _ _ _ (fun t i _ => by
    rw [getD_zero_of_all_zero A h i, zero_mul, add_zero])

/-- `Setup` on the ten samples 0..9 with wavelength 4: the first candidate
interval count is 10, the points-per-interval ratio is 10/11 < 1, and the
growth loop reports failure immediately. -/
theorem Setup_ten_samples_fails :
    Setup [0, 1, 2, 3, 4, 5, 6, 7, 8, 9] 4 = none := by
  have hmm : minmaxFold 0 [1, 2, 3, 4, 5, 6, 7, 8, 9] = (0, 9) := by
    norm_num [minmaxFold, List.foldl]
  have hg : growLoop 0 9 4 10 12 9 = none := by
    rw [growLoop_succ]
    norm_num
  rw [Setup_cons, hmm]
  simp only [List.length_cons, List.length_nil]
  norm_num [hg]

/-- Counterexample to claim C9 as stated: on x = [0, 1, ..., 9] (NX = 10)
with waveLength = 4.0, `Setup` does not succeed — it fails at the very first
candidate count (ni = 10), because `Ratio` requires at least one data point
per node interval and `10/11 < 1`. -/
theorem concrete_ten_sample_scenario_fails :
    Setup [0, 1, 2, 3, 4, 5, 6, 7, 8, 9] 4 = none := Setup_ten_samples_fails

/-- Claim C9 as amended: the ten-sample scenario fails grid setup (no M is
produced); and for every domain and cached factorization, fitting an
all-zero y-vector yields all-zero coefficients, with `evaluate` returning 0
everywhere. -/
theorem zero_fit_and_ten_sample_failure :
    Setup [0, 1, 2, 3, 4, 5, 6, 7, 8, 9] 4 = none ∧
      ∀ (d : SplineDom) (X : List ℚ) (LUm : MatN) (ix : ℕ → ℕ) (y : List ℚ),
        (∀ v ∈ y, v = 0) →
        ∃ A, fit d X LUm ix y = some A ∧ (∀ v ∈ A, v = 0) ∧
          ∀ x : ℚ, evaluate d A x = 0 := by
  refine ⟨Setup_ten_samples_fails, ?_⟩
  intro d X LUm ix y hy
  refine ⟨LU_solve LUm ix (fitB d X y), rfl, ?_, ?_⟩
  · exact LU_solve_zero _ _ _ (fitB_zero d X y hy)
  · intro x
    exact evaluate_zero d _ x (LU_solve_zero _ _ _ (fitB_zero d X y hy))

/-- Witness for the amended C9: the all-zero two-point data vector on the
domain xmin = 0, xmax = 5, M = 5, DX = 1 evaluates to 0 at x = 7. -/
theorem zero_fit_and_ten_sample_failure_witness :
    Setup [0, 1, 2, 3, 4, 5, 6, 7, 8, 9] 4 = none ∧
      evaluate ⟨0, 5, 5, 1⟩ (LU_solve (fun _ _ => 1) (fun k => k)
        (fitB ⟨0, 5, 5, 1⟩ [0, 3] [0, 0])) 7 = 0 := by
  obtain ⟨h1, h2⟩ := zero_fit_and_ten_sample_failure
  obtain ⟨A, hA, hz, hev⟩ := h2 ⟨0, 5, 5, 1⟩ [0, 3] (fun _ _ => 1) (fun k => k)
    [0, 0] (by intro v hv; simp at hv; exact hv)
  have hAe : LU_solve (fun _ _ => (1 : ℚ)) (fun k => k)
      (fitB ⟨0, 5, 5, 1⟩ [0, 3] [0, 0]) = A := Option.some.inj hA
  rw [hAe]
  exact ⟨h1, hev 7⟩

end Spline
